import Mathlib

/-!
# Jagged arrays: the class `JaggedArraySrc` of `_jagged.cpp`

A shallow embedding of `JaggedArraySrc` (awkward-cpp/awkward/cpp/array/_jagged.cpp).

* The templates are read at `T = std::int64_t`. Element values and indices
  (`T`, `std::int64_t`, `ssize_t`) are mathematical integers (`Int`); the
  swap functions convert to a width, through `toSigned` and `toUnsigned`, and
  `parents2startsstops_at` reads `parents2startsstops` at every element type.
* A numeric buffer is the list of cells that can be addressed from its base
  pointer, together with the fields of `py::buffer_info` that the code reads.
  A sequence is handed to the code as the one-dimensional contiguous buffer
  `BufferInfo.ofList` that holds it, or as a strided view: a buffer whose
  `strides[0]` is a multiple of `itemsize`, with the cells that lie between
  its elements in `ptr`.
* Reading or writing a cell outside the buffer is undefined behaviour in the
  source; here it is the error `Err.undefined`.
* Exceptions are the errors of `Except Err`.
* The five converters are handed buffers in native byte order (the format
  string has no byte-order marker), so the call of `makeNative` that opens
  each of them returns at once (line 45) and is left out of their
  definitions. `makeNative` and the six swap functions are embedded on their
  own, and `set_starts` and `set_stops` call `makeNative` as the source does.
* A method that assigns a member returns the object as the call leaves it.
* A loop over `i = 0 .. n-1` is a monadic fold over `List.range n`; an inner
  loop whose number of runs is known on entry recurses on that number.
-/

namespace Jagged

/-- The ways a call can end without a value. -/
inductive Err where
  /-- `std::invalid_argument`, with its message -/
  | invalid_argument (what : String)
  /-- `std::domain_error` -/
  | domain_error
  /-- `std::out_of_range` -/
  | out_of_range
  /-- an array of negative length was requested -/
  | value_error
  /-- a cell outside its buffer was read or written -/
  | undefined
  /-- `py::stop_iteration` -/
  | stop_iteration
  deriving DecidableEq, Repr

deriving instance DecidableEq for Except

/-- The fields of `py::buffer_info` that the code reads: `ptr` is the list of
cells addressable as `ptr[0]`, `ptr[1]`, ...; `strides` is in bytes. -/
structure BufferInfo (α : Type) where
  ptr : List α
  itemsize : Nat
  size : Nat
  ndim : Nat
  strides : List Int
  format : String
  shape : List Int
  deriving Repr

/-- A sequence as a one-dimensional contiguous buffer of 8-byte elements. -/
def BufferInfo.ofList {α : Type} (xs : List α) : BufferInfo α :=
  { ptr := xs, itemsize := 8, size := xs.length, ndim := 1, strides := [8],
    format := "q", shape := [(xs.length : Int)] }

/-- The read `p[i]`. -/
def rd {α : Type} (p : List α) (i : Int) : Except Err α :=
  if 0 ≤ i then
    match p[i.toNat]? with
    | some v => .ok v
    | none => .error .undefined
  else .error .undefined

/-- The write `p[i] = v`. -/
def wr {α : Type} (p : List α) (i : Int) (v : α) : Except Err (List α) :=
  if 0 ≤ i ∧ i.toNat < p.length then .ok (p.set i.toNat v) else .error .undefined

/-- A fresh array `py::array_t<...>(n)`; its cells hold `default` until they
are written. -/
def array_t {α : Type} [Inhabited α] (n : Int) : Except Err (List α) :=
  if n < 0 then .error .value_error else .ok (List.replicate n.toNat default)

/-- The element `strides[0]`. -/
def BufferInfo.stride0 {α : Type} (b : BufferInfo α) : Except Err Int :=
  match b.strides with
  | [] => .error .undefined
  | s :: _ => .ok s

/-- The stride in elements, `int N = info.strides[0] / info.itemsize;`. -/
def BufferInfo.N {α : Type} (b : BufferInfo α) : Except Err Int := do
  let s ← b.stride0
  pure (Int.tdiv s b.itemsize)

/-- Source lines 218-235, `counts2offsets`. -/
def counts2offsets (counts : BufferInfo Int) : Except Err (List Int) := do
  let N ← counts.N
  let offsets_length : Int := counts.size + 1
  let offsets : List Int ← array_t offsets_length
  let offsets ← wr offsets 0 0
  (List.range counts.size).foldlM
    (fun (offsets : List Int) (i : Nat) => do
      let prev ← rd offsets i
      let c ← rd counts.ptr (i * N)
      wr offsets (i + 1) (prev + c))
    offsets

/-- The loop `while (j < t) { p[j] = v; j += 1; }` and, with `j` starting at
`a`, the loop `for (j = a; j < t; j++) { p[j] = v; }`: the body runs `t - j`
times when `j < t` and not at all otherwise; the first argument counts the
runs that are left. Returns the array and the final `j`. -/
def fill (v : Int) : Nat → List Int → Int → Except Err (List Int × Int)
  | 0, p, j => pure (p, j)
  | n + 1, p, j => do
    let p ← wr p j v
    fill v n p (j + 1)

/-- Source lines 189-216, `offsets2parents`. -/
def offsets2parents (offsets : BufferInfo Int) : Except Err (List Int) :=
  if offsets.size ≤ 0 then .error (.invalid_argument "offsets must have at least one element")
  else do
    let N ← offsets.N
    let parents_length ← rd offsets.ptr ((offsets.size : Int) - 1)
    let parents : List Int ← array_t parents_length
    let s ← (List.range offsets.size).foldlM
      (fun (s : List Int × Int × Int) (i : Nat) => do
        let t ← rd offsets.ptr (i * N)
        let r ← fill s.2.2 (t - s.2.1).toNat s.1 s.2.1
        pure (r.1, r.2, s.2.2 + 1))
      (parents, 0, -1)
    pure s.1

/-- Source lines 277-330, `parents2startsstops<T>` at `T = std::int64_t`; the
caller that leaves `length` out passes the default `-1`. The other
instantiations are `parents2startsstops_at`. -/
def parents2startsstops (parents : BufferInfo Int) (length : Int) :
    Except Err (List Int × List Int) := do
  let N ← parents.N
  let length ←
    (if length < 0 then do
      let m ← (List.range parents.size).foldlM
        (fun (length : Int) (i : Nat) => do
          let p ← rd parents.ptr i
          if p > length then rd parents.ptr (i * N) else pure length)
        0
      pure (m + 1)
    else pure length)
  let starts : List Int ← array_t length
  let stops : List Int ← array_t length
  let z ← (List.range length.toNat).foldlM
    (fun (s : List Int × List Int) (i : Nat) => do
      let starts ← wr s.1 i 0
      let stops ← wr s.2 i 0
      pure (starts, stops))
    (starts, stops)
  let s ← (List.range parents.size).foldlM
    (fun (s : List Int × List Int × Int) (k : Nat) => do
      let thisOne ← rd parents.ptr (k * N)
      let last := s.2.2
      if last ≠ thisOne then do
        let stops ← (if last ≥ 0 ∧ last < length then wr s.2.1 last k else pure s.2.1)
        let starts ← (if thisOne ≥ 0 ∧ thisOne < length then wr s.1 thisOne k else pure s.1)
        pure (starts, stops, thisOne)
      else pure (s.1, s.2.1, thisOne))
    (z.1, z.2, -1)
  let last := s.2.2
  let stops ← (if last ≠ -1 then wr s.2.1 last parents.size else pure s.2.1)
  pure (s.1, stops)

/-- Source lines 332-397, `uniques2offsetsparents`. -/
def uniques2offsetsparents (uniques : BufferInfo Int) :
    Except Err (List Int × List Int) := do
  let N ← uniques.N
  let tempLength : Int := if uniques.size < 1 then 0 else (uniques.size : Int) - 1
  let tempArray : List Bool ← array_t tempLength
  let t ← (List.range ((uniques.size : Int) - 1).toNat).foldlM
    (fun (s : List Bool × Int) (i : Nat) => do
      let a ← rd uniques.ptr (i * N)
      let b ← rd uniques.ptr ((i + 1) * N)
      if a ≠ b then do
        let tempArray ← wr s.1 i true
        pure (tempArray, s.2 + 1)
      else do
        let tempArray ← wr s.1 i false
        pure (tempArray, s.2))
    (tempArray, 0)
  let tempArray := t.1
  let countLength := t.2
  let changes : List Int ← array_t countLength
  let c ← (List.range tempArray.length).foldlM
    (fun (s : List Int × Int) (i : Nat) => do
      let b ← rd tempArray i
      if b then do
        let changes ← wr s.1 s.2 (i + 1)
        pure (changes, s.2 + 1)
      else pure s)
    (changes, 0)
  let changes := c.1
  let offsets : List Int ← array_t ((changes.length : Int) + 2)
  let offsets ← wr offsets 0 0
  let offsets ← wr offsets ((offsets.length : Int) - 1) (uniques.size : Int)
  let offsets ← (List.range' 1 (offsets.length - 2)).foldlM
    (fun (offsets : List Int) (i : Nat) => do
      let v ← rd changes ((i : Int) - 1)
      wr offsets i v)
    offsets
  let parents : List Int ← array_t (uniques.size : Int)
  let parents ← (List.range parents.length).foldlM
    (fun (parents : List Int) (i : Nat) => wr parents i 0)
    parents
  let parents ← (List.range changes.length).foldlM
    (fun (parents : List Int) (i : Nat) => do
      let v ← rd changes i
      wr parents v 1)
    parents
  let parents ← (List.range' 1 (parents.length - 1)).foldlM
    (fun (parents : List Int) (i : Nat) => do
      let a ← rd parents i
      let b ← rd parents ((i : Int) - 1)
      wr parents i (a + b))
    parents
  pure (offsets, parents)

/-- The data members of `JaggedArraySrc` (source lines 92-97). The cells of
`content_array` are read as `std::int64_t`, as the accessor does. -/
inductive JaggedArraySrc where
  | mk (starts stops : BufferInfo Int) (content_array : BufferInfo Int)
      (content_jagged : Option JaggedArraySrc) (content_type : Char) (iter_index : Int)

/-- The member `starts`. -/
def JaggedArraySrc.starts : JaggedArraySrc → BufferInfo Int
  | .mk s _ _ _ _ _ => s

/-- The member `stops`. -/
def JaggedArraySrc.stops : JaggedArraySrc → BufferInfo Int
  | .mk _ s _ _ _ _ => s

/-- The member `content_array`. -/
def JaggedArraySrc.content_array : JaggedArraySrc → BufferInfo Int
  | .mk _ _ c _ _ _ => c

/-- The member `content_jagged`. -/
def JaggedArraySrc.content_jagged : JaggedArraySrc → Option JaggedArraySrc
  | .mk _ _ _ j _ _ => j

/-- The member `content_type`. -/
def JaggedArraySrc.content_type : JaggedArraySrc → Char
  | .mk _ _ _ _ t _ => t

/-- The member `iter_index`. -/
def JaggedArraySrc.iter_index : JaggedArraySrc → Int
  | .mk _ _ _ _ _ i => i

/-- The loop `for (i = start; i < stop; i++) { out[here++] = content[i]; }`;
the first argument counts the runs that are left. -/
def copyRow (content : List Int) : Nat → List Int → Int → Int → Except Err (List Int)
  | 0, out, _, _ => pure out
  | n + 1, out, i, here => do
    let v ← rd content i
    let out ← wr out here v
    copyRow content n out (i + 1) (here + 1)

/-- Source lines 399-440, `__getitem__`. -/
def __getitem__ (self : JaggedArraySrc) (index : Int) : Except Err (List Int) :=
  let index := if index < 0 then (self.starts.size : Int) + index else index
  if self.starts.size > self.stops.size then .error .out_of_range
  else if index > self.starts.size ∨ index < 0 then .error .out_of_range
  else if self.starts.ndim ≠ self.stops.ndim then .error .domain_error
  else do
    let start ← rd self.starts.ptr index
    let stop ← rd self.stops.ptr index
    if self.content_type = 'a' then
      let content_info := self.content_array
      if content_info.ndim = 1 then do
        let s0 ← content_info.stride0
        if s0 = 8 then
          if start ≥ content_info.size ∨ start < 0 ∨ stop > content_info.size ∨ stop < 0 then
            .error .out_of_range
          else if stop ≥ start then do
            let out : List Int ← array_t (stop - start)
            copyRow content_info.ptr (stop - start).toNat out start 0
          else .error .out_of_range
        else array_t 0
      else array_t 0
    else array_t 0

/-- A jagged array over flat content, as the first constructor leaves it
(source lines 173-179) when the three sequences are contiguous. -/
def JaggedArraySrc.flat (starts stops content : List Int) : JaggedArraySrc :=
  .mk (.ofList starts) (.ofList stops) (.ofList content) none 'a' 0

/-! ## Byte order (source lines 10-89)

Shifts are taken on the integers (an arithmetic shift to the right), `&` and
`|` on two's complement patterns, and each result is converted to the type the
source assigns or returns it as. -/

/-- Conversion of an integer to the unsigned type of `w` bits. -/
def toUnsigned (w : Nat) (x : Int) : Int := x % 2 ^ w

/-- Conversion of an integer to the signed type of `w` bits (two's
complement). -/
def toSigned (w : Nat) (x : Int) : Int :=
  if x % 2 ^ w < 2 ^ (w - 1) then x % 2 ^ w else x % 2 ^ w - 2 ^ w

/-- The two's complement pattern of an integer in 64 bits, the widest type
of the source. -/
def pattern64 (x : Int) : Nat := (x % 2 ^ 64).toNat

/-- The operator `&` on 64-bit patterns. -/
def bitand (a b : Int) : Int := ((pattern64 a &&& pattern64 b : Nat) : Int)

/-- The operator `|` on 64-bit patterns. -/
def bitor (a b : Int) : Int := ((pattern64 a ||| pattern64 b : Nat) : Int)

/-- Source lines 10-12, `swap_uint16`. -/
def swap_uint16 (val : Int) : Int :=
  toUnsigned 16 (bitor (val <<< (8 : Int)) (val >>> 8))

/-- Source lines 14-16, `swap_int16`. -/
def swap_int16 (val : Int) : Int :=
  toSigned 16 (bitor (val <<< (8 : Int)) (bitand (val >>> 8) 0xFF))

/-- Source lines 18-21, `swap_uint32`. -/
def swap_uint32 (val : Int) : Int :=
  let val := toUnsigned 32
    (bitor (bitand (val <<< (8 : Int)) 0xFF00FF00) (bitand (val >>> 8) 0xFF00FF))
  toUnsigned 32 (bitor (val <<< (16 : Int)) (val >>> 16))

/-- Source lines 23-26, `swap_int32`. -/
def swap_int32 (val : Int) : Int :=
  let val := toSigned 32
    (bitor (bitand (val <<< (8 : Int)) 0xFF00FF00) (bitand (val >>> 8) 0xFF00FF))
  toSigned 32 (bitor (val <<< (16 : Int)) (bitand (val >>> 16) 0xFFFF))

/-- Source lines 28-32, `swap_int64`. -/
def swap_int64 (val : Int) : Int :=
  let val := toSigned 64
    (bitor (bitand (val <<< (8 : Int)) 0xFF00FF00FF00FF00)
      (bitand (val >>> 8) 0x00FF00FF00FF00FF))
  let val := toSigned 64
    (bitor (bitand (val <<< (16 : Int)) 0xFFFF0000FFFF0000)
      (bitand (val >>> 16) 0x0000FFFF0000FFFF))
  toSigned 64 (bitor (val <<< (32 : Int)) (bitand (val >>> 32) 0xFFFFFFFF))

/-- Source lines 34-38, `swap_uint64`. -/
def swap_uint64 (val : Int) : Int :=
  let val := toUnsigned 64
    (bitor (bitand (val <<< (8 : Int)) 0xFF00FF00FF00FF00)
      (bitand (val >>> 8) 0x00FF00FF00FF00FF))
  let val := toUnsigned 64
    (bitor (bitand (val <<< (16 : Int)) 0xFFFF0000FFFF0000)
      (bitand (val >>> 16) 0x0000FFFF0000FFFF))
  toUnsigned 64 (bitor (val <<< (32 : Int)) (val >>> 32))

/-- An element type `T` of the templates: its width in bits and whether it is
signed. -/
structure IntType where
  bits : Nat
  signed : Bool
  deriving DecidableEq, Repr

/-- The type `std::int64_t`. -/
def IntType.int64 : IntType := { bits := 64, signed := true }

/-- The conversion `(T)x`. -/
def IntType.cast (T : IntType) (x : Int) : Int :=
  if T.signed then toSigned T.bits x else toUnsigned T.bits x

/-- The element `shape[0]`. -/
def BufferInfo.shape0 {α : Type} (b : BufferInfo α) : Except Err Int :=
  match b.shape with
  | [] => .error .undefined
  | s :: _ => .ok s

/-- The character `format.at(i)`; `std::string::at` throws
`std::out_of_range` past the end. -/
def string_at (format : String) (i : Nat) : Except Err Char :=
  match format.data[i]? with
  | some c => .ok c
  | none => .error .out_of_range

/-- The loop `for (i = 0; i < size; i++) { p[i * N] = swap(p[i * N]); }` of
`makeNative`, where `swap` stands for the two conversions and the swap
function of the branch. -/
def byteswap (swap : Int → Int) (N : Int) (size : Nat) (p : List Int) :
    Except Err (List Int) :=
  (List.range size).foldlM
    (fun (p : List Int) (i : Nat) => do
      let v ← rd p (i * N)
      wr p (i * N) (swap v))
    p

/-- Source lines 40-89, `makeNative<T>`: the buffer as the call leaves it. -/
def makeNative (T : IntType) (input : BufferInfo Int) : Except Err (BufferInfo Int) := do
  let c0 ← string_at input.format 0
  if c0 ≠ '>' ∧ c0 ≠ '<' then pure input
  else do
    let s0 ← input.shape0
    let N : Int := Int.tdiv s0 input.itemsize
    let c1 ← string_at input.format 1
    if c1 = 'H' then do
      let p ← byteswap (fun v => T.cast (swap_uint16 (toUnsigned 16 v))) N input.size input.ptr
      pure { input with ptr := p }
    else if c1 = 'h' then do
      let p ← byteswap (fun v => T.cast (swap_int16 (toSigned 16 v))) N input.size input.ptr
      pure { input with ptr := p }
    else if c1 = 'L' then do
      let p ← byteswap (fun v => T.cast (swap_uint32 (toUnsigned 32 v))) N input.size input.ptr
      pure { input with ptr := p }
    else if c1 = 'l' then do
      let p ← byteswap (fun v => T.cast (swap_int32 (toSigned 32 v))) N input.size input.ptr
      pure { input with ptr := p }
    else if c1 = 'Q' then do
      let p ← byteswap (fun v => T.cast (swap_uint64 (toUnsigned 64 v))) N input.size input.ptr
      pure { input with ptr := p }
    else if c1 = 'q' then do
      let p ← byteswap (fun v => T.cast (swap_int64 (toSigned 64 v))) N input.size input.ptr
      pure { input with ptr := p }
    else .error (.invalid_argument "Byteswap is not supported for this type")

/-! ## `parents2startsstops` at every element type (source lines 277-330)

The instantiations differ where a value is converted to `T` or compared with
a literal: `length++`, `(ssize_t)length`, `T last = -1` and `last != -1`. -/

/-- The value that the literal `-1` has when it is compared with a value of
type `T` (usual arithmetic conversions): an 8-bit or 16-bit `T` is promoted to
`int` and the literal stays `-1`; against an unsigned `T` of 32 or 64 bits the
literal is converted to `T`. -/
def IntType.minus_one (T : IntType) : Int :=
  if T.signed = false ∧ 32 ≤ T.bits then 2 ^ T.bits - 1 else -1

/-- Source lines 277-330, `parents2startsstops<T>`; `parents` holds values of
type `T`, and so does `length`. -/
def parents2startsstops_at (T : IntType) (parents : BufferInfo Int) (length : Int) :
    Except Err (List Int × List Int) := do
  let N ← parents.N
  let length ←
    (if length < 0 then do
      let m ← (List.range parents.size).foldlM
        (fun (length : Int) (i : Nat) => do
          let p ← rd parents.ptr i
          if p > length then rd parents.ptr (i * N) else pure length)
        0
      pure (T.cast (m + 1))
    else pure length)
  let starts : List Int ← array_t (toSigned 64 length)
  let stops : List Int ← array_t (toSigned 64 length)
  let z ← (List.range (toSigned 64 length).toNat).foldlM
    (fun (s : List Int × List Int) (i : Nat) => do
      let starts ← wr s.1 i 0
      let stops ← wr s.2 i 0
      pure (starts, stops))
    (starts, stops)
  let s ← (List.range parents.size).foldlM
    (fun (s : List Int × List Int × Int) (k : Nat) => do
      let thisOne ← rd parents.ptr (k * N)
      let last := s.2.2
      if last ≠ thisOne then do
        let stops ← (if last ≥ 0 ∧ last < length then wr s.2.1 last k else pure s.2.1)
        let starts ← (if thisOne ≥ 0 ∧ thisOne < length then wr s.1 thisOne k else pure s.1)
        pure (starts, stops, thisOne)
      else pure (s.1, s.2.1, thisOne))
    (z.1, z.2, T.cast (-1))
  let last := s.2.2
  let stops ← (if last ≠ T.minus_one then wr s.2.1 last parents.size else pure s.2.1)
  pure (s.1, stops)

/-! ## Construction and mutation (source lines 105-187) -/

/-- The loop of `set_starts` and `set_stops` that looks for a negative
element; `what` is the name in the message. -/
def check_non_negative (what : String) (N : Int) (size : Nat) (p : List Int) :
    Except Err Unit :=
  (List.range size).foldlM
    (fun (_ : Unit) (i : Nat) => do
      let v ← rd p (i * N)
      if v < 0 then
        .error (.invalid_argument
          (what ++ " must have all non-negative values: see index [" ++
            toString ((i : Int) * N) ++ "]"))
      else pure ())
    ()

/-- Source lines 137-152, `set_starts`, at `T = std::int64_t`. -/
def set_starts (self : JaggedArraySrc) (starts_ : BufferInfo Int) :
    Except Err JaggedArraySrc := do
  let starts_ ← makeNative IntType.int64 starts_
  if starts_.ndim < 1 then .error .domain_error
  else do
    let N ← starts_.N
    check_non_negative "starts" N starts_.size starts_.ptr
    pure (.mk starts_ self.stops self.content_array self.content_jagged self.content_type
      self.iter_index)

/-- Source lines 156-171, `set_stops`, at `T = std::int64_t`. -/
def set_stops (self : JaggedArraySrc) (stops_ : BufferInfo Int) :
    Except Err JaggedArraySrc := do
  let stops_ ← makeNative IntType.int64 stops_
  if stops_.ndim < 1 then .error .domain_error
  else do
    let N ← stops_.N
    check_non_negative "stops" N stops_.size stops_.ptr
    pure (.mk self.starts stops_ self.content_array self.content_jagged self.content_type
      self.iter_index)

/-- Source line 105, `get_content_type`. -/
def get_content_type (self : JaggedArraySrc) : Char := self.content_type

/-- Source lines 107-112, `get_content_array`. -/
def get_content_array (self : JaggedArraySrc) : Except Err (BufferInfo Int) :=
  if self.content_type ≠ 'a' then
    .error (.invalid_argument "JaggedArray must be of 'array' content type")
  else .ok self.content_array

/-- Source lines 114-119, `set_content_array`. -/
def set_content_array (self : JaggedArraySrc) (content_array_ : BufferInfo Int) :
    Except Err JaggedArraySrc :=
  if self.content_type ≠ 'a' then
    .error (.invalid_argument "JaggedArray must be of 'array' content type")
  else .ok (.mk self.starts self.stops content_array_ self.content_jagged self.content_type
    self.iter_index)

/-- Source lines 121-126, `get_content_jagged`; the pointer is `none` or the
array it points to. -/
def get_content_jagged (self : JaggedArraySrc) : Except Err (Option JaggedArraySrc) :=
  if self.content_type ≠ 'j' then
    .error (.invalid_argument "JaggedArray must be of 'jagged' content type")
  else .ok self.content_jagged

/-- Source lines 128-133, `set_content_jagged`. -/
def set_content_jagged (self : JaggedArraySrc) (content_jagged_ : Option JaggedArraySrc) :
    Except Err JaggedArraySrc :=
  if self.content_type ≠ 'j' then
    .error (.invalid_argument "JaggedArray must be of 'jagged' content type")
  else .ok (.mk self.starts self.stops self.content_array content_jagged_ self.content_type
    self.iter_index)

/-- Source line 135, `get_starts`. -/
def get_starts (self : JaggedArraySrc) : BufferInfo Int := self.starts

/-- Source line 154, `get_stops`. -/
def get_stops (self : JaggedArraySrc) : BufferInfo Int := self.stops

/-- The members before the body of a constructor runs: `starts`, `stops` and
`content_array` are default-constructed empty arrays; the pointer, the tag and
the cursor have no value yet and stand here as `none`, the character `0` and
`0`. -/
def JaggedArraySrc.blank : JaggedArraySrc :=
  .mk (.ofList []) (.ofList []) (.ofList []) none (Char.ofNat 0) 0

/-- Source lines 173-179, the constructor over a flat content array. -/
def JaggedArraySrc.init_array (starts_ stops_ content_ : BufferInfo Int) :
    Except Err JaggedArraySrc := do
  let self ← set_starts JaggedArraySrc.blank starts_
  let self ← set_stops self stops_
  pure (.mk self.starts self.stops content_ self.content_jagged 'a' self.iter_index)

/-- Source lines 181-187, the constructor over a nested jagged array. -/
def JaggedArraySrc.init_jagged (starts_ stops_ : BufferInfo Int)
    (content_ : Option JaggedArraySrc) : Except Err JaggedArraySrc := do
  let self ← set_starts JaggedArraySrc.blank starts_
  let self ← set_stops self stops_
  pure (.mk self.starts self.stops self.content_array content_ 'j' self.iter_index)

/-! ## Rendering and iteration (source lines 442-504) -/

/-- The loop `for (j = start; j < end; j++)` of `__str__` over one row; the
first argument counts the runs that are left. -/
def strRow (array : List Int) (start : Int) : Nat → String → Int → Except Err String
  | 0, out, _ => pure out
  | n + 1, out, j => do
    let out := if j ≠ start then out ++ " " else out
    let v ← rd array j
    strRow array start n (out ++ toString v) (j + 1)

/-- Source lines 442-484, `__str__`. -/
def __str__ (self : JaggedArraySrc) : Except Err String :=
  if self.content_type = 'a' then
    let array_info := self.content_array
    if array_info.ndim = 1 then do
      let N ← array_info.N
      if N = 1 then
        if self.starts.size > self.stops.size then .error .out_of_range
        else do
          let out ← (List.range self.starts.size).foldlM
            (fun (out : String) (i : Nat) => do
              let out := if i ≠ 0 then out ++ " " else out
              let out := out ++ "["
              let end_ ← rd self.stops.ptr i
              let start ← rd self.starts.ptr i
              if start > end_ then .error .out_of_range
              else do
                let out ← strRow array_info.ptr start (end_ - start).toNat out start
                pure (out ++ "]"))
            ""
          pure ("[" ++ out ++ "]")
      else pure "-Error: print function is not yet implemented for this type-"
    else pure "-Error: print function is not yet implemented for this type-"
  else pure "-Error: print function is not yet implemented for this type-"

/-- Source lines 486-488, `__repr__`. -/
def __repr__ (self : JaggedArraySrc) : Except Err String := do
  let s ← __str__ self
  pure ("<JaggedArray " ++ s ++ ">")

/-- Source lines 490-492, `__len__`. -/
def __len__ (self : JaggedArraySrc) : Int := self.starts.size

/-- Source lines 494-497, `__iter__`: the array with its cursor at `0`. -/
def __iter__ (self : JaggedArraySrc) : JaggedArraySrc :=
  .mk self.starts self.stops self.content_array self.content_jagged self.content_type 0

/-- Source lines 499-504, `__next__`: what the call returns or throws, and the
array as the call leaves it. The cursor is advanced before `__getitem__`
runs. -/
def __next__ (self : JaggedArraySrc) : Except Err (List Int) × JaggedArraySrc :=
  if self.iter_index ≥ self.starts.size then (.error .stop_iteration, self)
  else
    let advanced : JaggedArraySrc :=
      .mk self.starts self.stops self.content_array self.content_jagged self.content_type
        (self.iter_index + 1)
    (__getitem__ advanced self.iter_index, advanced)

/-! ## Notions used to state the properties -/

/-- The invariant of the scan of `parents2startsstops` after `k` elements:
`p` is the sequence of parents, `L` the number of groups. -/
def ScanInv (p : Nat → Int) (L k : Nat) (s : List Int × List Int × Int) : Prop :=
  s.1.length = L ∧ s.2.1.length = L ∧
  s.2.2 = (if k = 0 then -1 else p (k - 1)) ∧
  ∀ g : Nat, g < L →
    ((∀ i, i < k → p i ≠ (g : Int)) → s.1[g]? = some 0 ∧ s.2.1[g]? = some 0) ∧
    (∀ i, i < k → p i = (g : Int) → (∀ i2, i2 < i → p i2 ≠ (g : Int)) →
      s.1[g]? = some (i : Int)) ∧
    ((g : Int) ≠ s.2.2 → ∀ i, i < k → p i = (g : Int) →
      (∀ i2, i < i2 → i2 < k → p i2 ≠ (g : Int)) → s.2.1[g]? = some ((i : Int) + 1))

/-- The positions just after a change: `i + 1` for every `i < m` with `d i`. -/
def boundaries (d : Nat → Bool) (m : Nat) : List Int :=
  ((List.range m).filter d).map (fun (i : Nat) => (i : Int) + 1)

/-- The number of changes before position `j`. -/
def runIndex (d : Nat → Bool) (j : Nat) : Int :=
  (((List.range j).filter d).length : Int)

/-- Whether `uniques[i]` and `uniques[i + 1]` differ. -/
def differs (uniques : List Int) (i : Nat) : Bool :=
  decide (uniques.getD i 0 ≠ uniques.getD (i + 1) 0)

/-- The array after `k` calls of `__next__`. -/
def after_nexts : Nat → JaggedArraySrc → JaggedArraySrc
  | 0, self => self
  | k + 1, self => (__next__ (after_nexts k self)).2

/-- A call of a bound method of `JaggedArraySrc`, with its arguments. -/
inductive Call where
  | set_starts (starts_ : BufferInfo Int)
  | set_stops (stops_ : BufferInfo Int)
  | set_content_array (content_array_ : BufferInfo Int)
  | set_content_jagged (content_jagged_ : Option JaggedArraySrc)
  | get_content_type
  | get_content_array
  | get_content_jagged
  | get_starts
  | get_stops
  | getitem (index : Int)
  | str
  | repr
  | len
  | iter
  | next

/-- The array as a call leaves it, whether the call returns or throws. A
setter that throws does so before it assigns; `__iter__` and `__next__` move
the cursor; the other methods assign nothing. -/
def after (self : JaggedArraySrc) : Call → JaggedArraySrc
  | .set_starts starts_ =>
    match set_starts self starts_ with
    | .ok s => s
    | .error _ => self
  | .set_stops stops_ =>
    match set_stops self stops_ with
    | .ok s => s
    | .error _ => self
  | .set_content_array content_array_ =>
    match set_content_array self content_array_ with
    | .ok s => s
    | .error _ => self
  | .set_content_jagged content_jagged_ =>
    match set_content_jagged self content_jagged_ with
    | .ok s => s
    | .error _ => self
  | .iter => __iter__ self
  | .next => (__next__ self).2
  | _ => self

/-- Byte `k` of the two's complement pattern of `x` (byte `0` is the least
significant one). -/
def byte (x : Int) (k : Nat) : Int := (x / 256 ^ k) % 256

/-- Bit `i` of the 64-bit two's complement pattern of `x`. -/
def bit (x : Int) (i : Nat) : Bool := (pattern64 x).testBit i

/-- The function `f` on the integer type of `n` bytes with the values
`lo ≤ x < hi` is exact byte reversal: it stays in the type, byte `k` of `f x`
is byte `n - 1 - k` of `x`, and `f` undoes itself. -/
def ByteReversal (lo hi : Int) (n : Nat) (f : Int → Int) : Prop :=
  ∀ x, lo ≤ x → x < hi →
    (lo ≤ f x ∧ f x < hi) ∧ (∀ k, k < n → byte (f x) k = byte x (n - 1 - k)) ∧ f (f x) = x

/-! ## Reading, writing and looping -/

theorem rd_nat {α : Type} {p : List α} {i : Nat} {v : α} (h : p[i]? = some v) :
    rd p (i : Int) = .ok v := by
  simp [rd, h]

theorem wr_nat {α : Type} {p : List α} {i : Nat} (v : α) (h : i < p.length) :
    wr p (i : Int) v = .ok (p.set i v) := by
  simp [wr, h]

theorem array_t_nat {α : Type} [Inhabited α] (n : Nat) :
    (array_t (n : Int) : Except Err (List α)) = .ok (List.replicate n default) := by
  simp [array_t]

theorem N_ofList {α : Type} (xs : List α) : (BufferInfo.ofList xs).N = .ok 1 := by
  simp [BufferInfo.N, BufferInfo.stride0, BufferInfo.ofList, bind, Except.bind, pure, Except.pure]

theorem foldlM_range_succ {σ : Type} (f : σ → Nat → Except Err σ) (n : Nat) (init : σ) :
    (List.range (n + 1)).foldlM f init = ((List.range n).foldlM f init >>= fun s => f s n) := by
  rw [List.range_succ, List.foldlM_append]
  congr 1
  funext s
  simp [List.foldlM_cons]

/-- The loop rule: an invariant that holds at the start and is kept by every
run of the body holds at the end, and the loop ends with a value. -/
theorem foldlM_range_inv {σ : Type} (f : σ → Nat → Except Err σ) (P : Nat → σ → Prop)
    (n : Nat) (init : σ) (h0 : P 0 init)
    (hs : ∀ i, i < n → ∀ s, P i s → ∃ s', f s i = .ok s' ∧ P (i + 1) s') :
    ∃ s, (List.range n).foldlM f init = .ok s ∧ P n s := by
  induction n with
  | zero => exact ⟨init, rfl, h0⟩
  | succ m ih =>
    obtain ⟨s, hs1, hs2⟩ := ih (fun i hi => hs i (Nat.lt_succ_of_lt hi))
    obtain ⟨s', h1, h2⟩ := hs m (Nat.lt_succ_self m) s hs2
    refine ⟨s', ?_, h2⟩
    rw [foldlM_range_succ, hs1]
    exact h1

/-! ## `counts2offsets` -/

theorem sum_take_succ_getElem? (counts : List Int) (i : Nat) (c : Int)
    (h : counts[i]? = some c) : (counts.take (i + 1)).sum = (counts.take i).sum + c := by
  obtain ⟨hi, rfl⟩ := List.getElem?_eq_some.mp h
  exact List.sum_take_succ counts i hi

theorem counts2offsets_ofList (counts : List Int) :
    counts2offsets (.ofList counts) =
      .ok ((List.range (counts.length + 1)).map (fun i => (counts.take i).sum)) := by
  have hinv := foldlM_range_inv
    (fun (offsets : List Int) (i : Nat) => do
      let prev ← rd offsets i
      let c ← rd counts ((i : Int) * 1)
      wr offsets ((i : Int) + 1) (prev + c))
    (fun i offs => offs.length = counts.length + 1 ∧
      ∀ j, j ≤ i → offs[j]? = some ((counts.take j).sum))
    counts.length ((List.replicate (counts.length + 1) (0 : Int)).set 0 0)
    (by
      refine ⟨by simp, ?_⟩
      intro j hj
      obtain rfl : j = 0 := Nat.le_zero.mp hj
      simp)
    (by
      intro i hi s ⟨hlen, hpre⟩
      have hc : counts[i]? = some counts[i] := List.getElem?_eq_getElem hi
      refine ⟨s.set (i + 1) ((counts.take i).sum + counts[i]), ?_, ?_, ?_⟩
      · beta_reduce
        rw [rd_nat (hpre i (Nat.le_refl i))]
        simp only [mul_one]
        rw [rd_nat hc]
        have : ((i : Int) + 1) = ((i + 1 : Nat) : Int) := by push_cast; rfl
        rw [this]
        exact wr_nat _ (by omega)
      · simp [hlen]
      · intro j hj
        rcases Nat.lt_or_ge j (i + 1) with hlt | hge
        · rw [List.getElem?_set_ne (by omega)]
          exact hpre j (by omega)
        · obtain rfl : j = i + 1 := by omega
          rw [List.getElem?_set_self (by omega), sum_take_succ_getElem? counts i _ hc])
  obtain ⟨s, hs, hlen, hpre⟩ := hinv
  have hal : (array_t ((counts.length : Int) + 1) : Except Err (List Int)) =
      .ok (List.replicate (counts.length + 1) 0) := by
    have := array_t_nat (α := Int) (counts.length + 1)
    simpa using this
  have hw : wr (List.replicate (counts.length + 1) (0 : Int)) 0 0 =
      .ok ((List.replicate (counts.length + 1) (0 : Int)).set 0 0) := by
    have := wr_nat (p := List.replicate (counts.length + 1) (0 : Int)) (i := 0) 0 (by simp)
    simpa using this
  have hres : counts2offsets (.ofList counts) = .ok s := by
    unfold counts2offsets
    rw [N_ofList]
    simp only [BufferInfo.ofList]
    show (do
      let offsets ← array_t ((counts.length : Int) + 1)
      let offsets ← wr offsets 0 0
      (List.range counts.length).foldlM _ offsets) = _
    rw [hal]
    show (do
      let offsets ← wr (List.replicate (counts.length + 1) (0 : Int)) 0 0
      (List.range counts.length).foldlM _ offsets) = _
    rw [hw]
    exact hs
  rw [hres]
  congr 1
  apply List.ext_getElem?
  intro j
  rcases Nat.lt_or_ge j (counts.length + 1) with hlt | hge
  · rw [hpre j (by omega), List.getElem?_map, List.getElem?_range hlt]
    rfl
  · rw [List.getElem?_eq_none (by omega), List.getElem?_eq_none (by simp; omega)]

/-! ## `offsets2parents` -/

theorem bind_ok {α β : Type} {x : Except Err α} {v : α} {f : α → Except Err β}
    {r : Except Err β} (h : x = .ok v) (h2 : f v = r) : (x >>= f) = r := by
  subst h
  exact h2

theorem fill_spec (v : Int) (cnt : Nat) : ∀ (p : List Int) (j : Nat), j + cnt ≤ p.length →
    ∃ q, fill v cnt p (j : Int) = .ok (q, ((j + cnt : Nat) : Int)) ∧ q.length = p.length ∧
      ∀ x, q[x]? = if j ≤ x ∧ x < j + cnt then some v else p[x]? := by
  induction cnt with
  | zero =>
    intro p j _
    refine ⟨p, rfl, rfl, ?_⟩
    intro x
    rw [if_neg (by omega)]
  | succ n ih =>
    intro p j hj
    obtain ⟨q, hq, hlen, hget⟩ := ih (p.set j v) (j + 1) (by simp; omega)
    refine ⟨q, ?_, by simpa using hlen, ?_⟩
    · unfold fill
      refine bind_ok (wr_nat v (by omega)) ?_
      have e1 : ((j : Int) + 1) = ((j + 1 : Nat) : Int) := by push_cast; rfl
      have e2 : j + 1 + n = j + (n + 1) := by omega
      rw [e1, hq, e2]
    · intro x
      rw [hget x, List.getElem?_set]
      by_cases h1 : j = x
      · subst h1
        simp
        omega
      · by_cases h2 : j + 1 ≤ x ∧ x < j + 1 + n
        · rw [if_pos h2, if_pos (by omega)]
        · rw [if_neg h2, if_neg h1, if_neg (by omega)]

theorem rd_map_ofNat (a : List Nat) (i : Nat) (h : i < a.length) :
    rd (a.map Int.ofNat) (i : Int) = .ok ((a.getD i 0 : Nat) : Int) := by
  apply rd_nat
  rw [List.getElem?_map, List.getElem?_eq_getElem h, List.getD_eq_getElem _ _ h]
  rfl

theorem offsets2parents_spec (a : List Nat) (hne : a ≠ [])
    (hmono : ∀ i j, i ≤ j → j < a.length → a.getD i 0 ≤ a.getD j 0) :
    ∃ ps, offsets2parents (.ofList (a.map Int.ofNat)) = .ok ps ∧
      ps.length = a.getD (a.length - 1) 0 ∧
      (∀ x, x < a.getD 0 0 → ps[x]? = some (-1)) ∧
      (∀ k x, k + 1 < a.length → a.getD k 0 ≤ x → x < a.getD (k + 1) 0 →
        ps[x]? = some (k : Int)) := by
  have hpos : 0 < a.length := List.length_pos.mpr hne
  obtain ⟨g, hg⟩ : ∃ g : Nat → Nat, ∀ i, a.getD i 0 = g i := ⟨_, fun _ => rfl⟩
  simp only [hg] at hmono ⊢
  have hrd : ∀ i, i < a.length → rd (a.map Int.ofNat) (i : Int) = .ok ((g i : Nat) : Int) := by
    intro i hi
    rw [← hg]
    exact rd_map_ofNat a i hi
  have hinv := foldlM_range_inv
    (fun (s : List Int × Int × Int) (i : Nat) => do
      let t ← rd (a.map Int.ofNat) ((i : Int) * 1)
      let r ← fill s.2.2 (t - s.2.1).toNat s.1 s.2.1
      pure (r.1, r.2, s.2.2 + 1))
    (fun i s => s.1.length = g (a.length - 1) ∧
      s.2.2 = (i : Int) - 1 ∧
      s.2.1 = (((if i = 0 then 0 else g (i - 1)) : Nat) : Int) ∧
      (0 < i → ∀ x, x < g 0 → s.1[x]? = some (-1)) ∧
      (∀ k x, k + 1 < i → g k ≤ x → x < g (k + 1) → s.1[x]? = some (k : Int)))
    a.length (List.replicate (g (a.length - 1)) 0, 0, -1)
    (by
      refine ⟨by simp, by simp, by simp, ?_, ?_⟩
      · intro h; omega
      · intro k x h; omega)
    (by
      rintro i hi ⟨ps, j, k⟩ ⟨hlen, hk, hj, hneg, hgrp⟩
      dsimp only at hlen hk hj hneg hgrp
      obtain ⟨J, hJdef⟩ : ∃ J : Nat, J = if i = 0 then 0 else g (i - 1) := ⟨_, rfl⟩
      rw [← hJdef] at hj
      have hJ0 : i = 0 → J = 0 := by intro h; rw [hJdef, if_pos h]
      have hJ1 : i ≠ 0 → J = g (i - 1) := by intro h; rw [hJdef, if_neg h]
      have hJ : J ≤ g i := by
        by_cases h : i = 0
        · have := hJ0 h; omega
        · rw [hJ1 h]; exact hmono (i - 1) i (by omega) hi
      have hL : g i ≤ g (a.length - 1) := hmono i (a.length - 1) (by omega) (by omega)
      have hcnt : (((g i : Nat) : Int) - j).toNat = g i - J := by
        rw [hj]; omega
      obtain ⟨q, hq, hqlen, hqget⟩ := fill_spec k (g i - J) ps J (by omega)
      have hsum : J + (g i - J) = g i := by omega
      rw [hsum] at hq hqget
      refine ⟨(q, ((g i : Nat) : Int), k + 1), ?_, ?_, ?_, ?_, ?_, ?_⟩
      · beta_reduce
        simp only [mul_one]
        refine bind_ok (hrd i hi) ?_
        dsimp only
        rw [hcnt, hj]
        exact bind_ok hq rfl
      · exact hqlen.trans hlen
      · dsimp only
        rw [hk]; push_cast; ring
      · dsimp only
        rw [if_neg (by omega)]
        rfl
      · intro _ x hx
        dsimp only
        rw [hqget x]
        by_cases hi0 : i = 0
        · have := hJ0 hi0
          subst hi0
          rw [if_pos (by omega), hk]
          rfl
        · have h0 : g 0 ≤ g (i - 1) := hmono 0 (i - 1) (by omega) (by omega)
          have := hJ1 hi0
          rw [if_neg (by omega)]
          exact hneg (by omega) x hx
      · intro k' x hk' hlo hhi
        dsimp only
        rw [hqget x]
        have hi0 : i ≠ 0 := by omega
        have hJe := hJ1 hi0
        by_cases hlast : k' + 1 = i
        · subst hlast
          simp only [Nat.add_sub_cancel] at hJe
          rw [if_pos (by omega), hk]
          congr 1
          push_cast
          ring
        · have h1 : g (k' + 1) ≤ g (i - 1) :=
            hmono (k' + 1) (i - 1) (by omega) (by omega)
          rw [if_neg (by omega)]
          exact hgrp k' x (by omega) hlo hhi)
  obtain ⟨⟨ps, j, k⟩, hs, hlen, -, -, hneg, hgrp⟩ := hinv
  refine ⟨ps, ?_, hlen, hneg hpos, hgrp⟩
  unfold offsets2parents
  have hsz : ¬ (BufferInfo.ofList (a.map Int.ofNat)).size ≤ 0 := by
    simp only [BufferInfo.ofList, List.length_map]; omega
  rw [if_neg hsz]
  refine bind_ok (N_ofList _) ?_
  have hlast : rd (BufferInfo.ofList (a.map Int.ofNat)).ptr
      (((BufferInfo.ofList (a.map Int.ofNat)).size : Int) - 1) =
      .ok ((g (a.length - 1) : Nat) : Int) := by
    have := hrd (a.length - 1) (by omega)
    simp only [BufferInfo.ofList, List.length_map]
    have e : ((a.length : Int) - 1) = ((a.length - 1 : Nat) : Int) := by omega
    rw [e]; exact this
  refine bind_ok hlast ?_
  refine bind_ok (array_t_nat _) ?_
  simp only [BufferInfo.ofList, List.length_map]
  exact bind_ok hs rfl

theorem getD_mono_of_chain (o : List Int) (h : o.Chain' (· ≤ ·)) :
    ∀ i j, i ≤ j → j < o.length → o.getD i 0 ≤ o.getD j 0 := by
  intro i j hij hj
  rw [List.getD_eq_getElem _ _ hj, List.getD_eq_getElem _ _ (by omega)]
  rcases Nat.eq_or_lt_of_le hij with rfl | hlt
  · exact le_refl _
  · exact List.pairwise_iff_getElem.mp (List.chain'_iff_pairwise.mp h) i j (by omega) hj hlt

theorem getD_nonneg_of_forall (o : List Int) (h : ∀ x ∈ o, 0 ≤ x) : ∀ i, 0 ≤ o.getD i 0 := by
  intro i
  rcases Nat.lt_or_ge i o.length with hi | hi
  · rw [List.getD_eq_getElem _ _ hi]
    exact h _ (List.getElem_mem hi)
  · rw [List.getD_eq_default _ _ hi]

theorem offsets2parents_int (o : List Int) (hne : o ≠ []) (hpos : ∀ i, 0 ≤ o.getD i 0)
    (hmono : ∀ i j, i ≤ j → j < o.length → o.getD i 0 ≤ o.getD j 0) :
    ∃ ps, offsets2parents (.ofList o) = .ok ps ∧
      (ps.length : Int) = o.getD (o.length - 1) 0 ∧
      (∀ x : Nat, (x : Int) < o.getD 0 0 → ps[x]? = some (-1)) ∧
      (∀ k x : Nat, k + 1 < o.length → o.getD k 0 ≤ (x : Int) → (x : Int) < o.getD (k + 1) 0 →
        ps[x]? = some (k : Int)) := by
  have hmap : (o.map Int.toNat).map Int.ofNat = o := by
    rw [List.map_map]
    conv_rhs => rw [← List.map_id o]
    apply List.map_congr_left
    intro x hx
    obtain ⟨i, hi, rfl⟩ := List.getElem_of_mem hx
    have := hpos i
    rw [List.getD_eq_getElem _ _ hi] at this
    exact Int.toNat_of_nonneg this
  have hget : ∀ i, (((o.map Int.toNat).getD i 0 : Nat) : Int) = o.getD i 0 := by
    intro i
    have h1 : (o.map Int.toNat).getD i 0 = (o.getD i 0).toNat := by
      have := List.getD_map o (0 : Int) (n := i) Int.toNat
      simpa using this
    rw [h1]
    exact Int.toNat_of_nonneg (hpos i)
  have hlen : (o.map Int.toNat).length = o.length := List.length_map _ _
  obtain ⟨ps, h1, h2, h3, h4⟩ := offsets2parents_spec (o.map Int.toNat)
    (by intro h; exact hne (List.map_eq_nil_iff.mp h))
    (by
      intro i j hij hj
      rw [hlen] at hj
      have := hmono i j hij hj
      rw [← hget i, ← hget j] at this
      exact_mod_cast this)
  rw [hmap] at h1
  rw [hlen] at h2 h4
  refine ⟨ps, h1, ?_, ?_, ?_⟩
  · rw [h2, hget]
  · intro x hx
    rw [← hget 0] at hx
    exact h3 x (by exact_mod_cast hx)
  · intro k x hk hlo hhi
    rw [← hget k] at hlo
    rw [← hget (k + 1)] at hhi
    exact h4 k x hk (by exact_mod_cast hlo) (by exact_mod_cast hhi)

/-- C1. `counts2offsets` is the prefix sum of its input: for a sequence `counts`
of length `n` the result has length `n + 1`, `offsets[0] = 0`, and
`offsets[i + 1] = offsets[i] + counts[i]` for every `i < n` (integers without
overflow); and `counts2offsets([]) = [0]`. -/
theorem counts2offsets_prefix_sum (counts : List Int) :
    (∃ offsets : List Int, counts2offsets (.ofList counts) = .ok offsets ∧
      offsets.length = counts.length + 1 ∧ offsets[0]? = some 0 ∧
      ∀ (i : Nat) (h : i < counts.length), ∃ a : Int,
        offsets[i]? = some a ∧ offsets[i + 1]? = some (a + counts[i])) ∧
    counts2offsets (.ofList []) = .ok [0] := by
  refine ⟨⟨_, counts2offsets_ofList counts, by simp, by simp, ?_⟩, by decide⟩
  intro i h
  refine ⟨(counts.take i).sum, ?_, ?_⟩
  · rw [List.getElem?_map, List.getElem?_range (by omega)]
    rfl
  · rw [List.getElem?_map, List.getElem?_range (by omega)]
    simp only [Option.map_some']
    rw [List.sum_take_succ counts i h]

/-- On a contiguous buffer: for a non-empty, non-decreasing sequence `offsets`
of non-negative values, `offsets2parents` returns a sequence whose length is the last offset,
in which every position `j` with `offsets[k] ≤ j < offsets[k+1]` holds `k` and
every position `j < offsets[0]` holds `-1`; and `offsets2parents([0])` is the
empty sequence. -/
theorem offsets2parents_groups (offsets : List Int) (hne : offsets ≠ [])
    (hmono : offsets.Chain' (· ≤ ·)) (hpos : ∀ x ∈ offsets, 0 ≤ x) :
    (∃ parents : List Int, offsets2parents (.ofList offsets) = .ok parents ∧
      (parents.length : Int) = offsets.getLast hne ∧
      (∀ (k : Nat) (h : k + 1 < offsets.length) (j : Nat),
        offsets[k] ≤ (j : Int) → (j : Int) < offsets[k + 1] → parents[j]? = some (k : Int)) ∧
      (∀ (h0 : 0 < offsets.length) (j : Nat),
        (j : Int) < offsets[0] → parents[j]? = some (-1))) ∧
    offsets2parents (.ofList [0]) = .ok [] := by
  refine ⟨?_, by decide⟩
  have hlen : 0 < offsets.length := List.length_pos.mpr hne
  obtain ⟨ps, h1, h2, h3, h4⟩ := offsets2parents_int offsets hne
    (getD_nonneg_of_forall offsets hpos) (getD_mono_of_chain offsets hmono)
  refine ⟨ps, h1, ?_, ?_, ?_⟩
  · rw [h2, List.getLast_eq_getElem, List.getD_eq_getElem _ _ (by omega)]
  · intro k h j hlo hhi
    apply h4 k j h
    · rw [List.getD_eq_getElem _ _ (by omega)]; exact hlo
    · rw [List.getD_eq_getElem _ _ h]; exact hhi
  · intro h0 j hj
    apply h3 j
    rw [List.getD_eq_getElem _ _ hlen]; exact hj

theorem offsets2parents_groups_witness :
    (∃ parents : List Int, offsets2parents (.ofList [2, 3, 3, 5]) = .ok parents ∧
      (parents.length : Int) = ([2, 3, 3, 5] : List Int).getLast (by decide) ∧
      (∀ (k : Nat) (h : k + 1 < ([2, 3, 3, 5] : List Int).length) (j : Nat),
        ([2, 3, 3, 5] : List Int)[k] ≤ (j : Int) → (j : Int) < ([2, 3, 3, 5] : List Int)[k + 1] →
          parents[j]? = some (k : Int)) ∧
      (∀ (h0 : 0 < ([2, 3, 3, 5] : List Int).length) (j : Nat),
        (j : Int) < ([2, 3, 3, 5] : List Int)[0] → parents[j]? = some (-1))) ∧
    offsets2parents (.ofList [0]) = .ok [] :=
  offsets2parents_groups [2, 3, 3, 5] (by decide) (by simp) (by decide)

/-! ## `offsets2parents` after `counts2offsets` -/

theorem sum_take_le_succ (counts : List Int) (hpos : ∀ c ∈ counts, 0 ≤ c) (i : Nat) :
    (counts.take i).sum ≤ (counts.take (i + 1)).sum := by
  rcases Nat.lt_or_ge i counts.length with hi | hi
  · rw [List.sum_take_succ counts i hi]
    have := hpos _ (List.getElem_mem hi)
    omega
  · rw [List.take_of_length_le hi, List.take_of_length_le (by omega)]

theorem sum_take_mono (counts : List Int) (hpos : ∀ c ∈ counts, 0 ≤ c) (i j : Nat)
    (hij : i ≤ j) : (counts.take i).sum ≤ (counts.take j).sum := by
  induction j with
  | zero =>
    obtain rfl : i = 0 := by omega
    exact le_refl _
  | succ m ih =>
    rcases Nat.eq_or_lt_of_le hij with rfl | hlt
    · exact le_refl _
    · exact le_trans (ih (by omega)) (sum_take_le_succ counts hpos m)

theorem exists_group (f : Nat → Int) (j : Int) (n : Nat) (h0 : f 0 ≤ j) (hn : j < f n) :
    ∃ g, g < n ∧ f g ≤ j ∧ j < f (g + 1) := by
  induction n with
  | zero => omega
  | succ m ih =>
    by_cases h : j < f m
    · obtain ⟨g, hg, h1, h2⟩ := ih h
      exact ⟨g, by omega, h1, h2⟩
    · exact ⟨m, by omega, by omega, hn⟩

theorem getD_prefix (counts : List Int) (i : Nat) (hi : i < counts.length + 1) :
    ((List.range (counts.length + 1)).map (fun i => (counts.take i).sum)).getD i 0 =
      (counts.take i).sum := by
  rw [List.getD_eq_getElem _ _ (by simpa using hi)]
  simp

/-- C7. Counts inverse: for non-negative `counts` the parents of the offsets
of `counts` have length `sum(counts)`, and position `j` holds the one group
index `g` with `sum(counts[0:g]) ≤ j < sum(counts[0:g+1])`. -/
theorem counts_inverse (counts : List Int) (hpos : ∀ c ∈ counts, 0 ≤ c) :
    ∃ offsets parents : List Int,
      counts2offsets (.ofList counts) = .ok offsets ∧
      offsets2parents (.ofList offsets) = .ok parents ∧
      (parents.length : Int) = counts.sum ∧
      ∀ j : Nat, (j : Int) < counts.sum →
        ∃ g : Nat, g < counts.length ∧ parents[j]? = some (g : Int) ∧
          (counts.take g).sum ≤ (j : Int) ∧ (j : Int) < (counts.take (g + 1)).sum ∧
          ∀ g2 : Nat, (counts.take g2).sum ≤ (j : Int) →
            (j : Int) < (counts.take (g2 + 1)).sum → g2 = g := by
  obtain ⟨o, ho⟩ : ∃ o, o = (List.range (counts.length + 1)).map
      (fun i => (counts.take i).sum) := ⟨_, rfl⟩
  have holen : o.length = counts.length + 1 := by rw [ho]; simp
  have hoget : ∀ i, i < counts.length + 1 → o.getD i 0 = (counts.take i).sum := by
    intro i hi
    rw [ho]
    exact getD_prefix counts i hi
  have hmono := sum_take_mono counts hpos
  obtain ⟨ps, h1, h2, -, h4⟩ := offsets2parents_int o
    (by intro h; rw [h] at holen; simp at holen)
    (by
      intro i
      rcases Nat.lt_or_ge i o.length with hi | hi
      · rw [hoget i (by omega)]
        have := hmono 0 i (by omega)
        simpa using this
      · rw [List.getD_eq_default _ _ hi])
    (by
      intro i j hij hj
      rw [hoget i (by omega), hoget j (by omega)]
      exact hmono i j hij)
  refine ⟨o, ps, ?_, h1, ?_, ?_⟩
  · rw [ho]
    exact counts2offsets_ofList counts
  · rw [h2, holen, hoget _ (by omega)]
    simp
  · intro j hj
    obtain ⟨g, hg, hlo, hhi⟩ := exists_group (fun i => (counts.take i).sum) j counts.length
      (by simp) (by simpa using hj)
    refine ⟨g, hg, ?_, hlo, hhi, ?_⟩
    · apply h4 g j (by omega)
      · rw [hoget g (by omega)]; exact hlo
      · rw [hoget (g + 1) (by omega)]; exact hhi
    · intro g2 hlo2 hhi2
      rcases Nat.lt_trichotomy g2 g with h | h | h
      · have := hmono (g2 + 1) g (by omega)
        omega
      · exact h
      · have := hmono (g + 1) g2 (by omega)
        omega

theorem counts_inverse_witness :
    ∃ offsets parents : List Int,
      counts2offsets (.ofList [2, 0, 3]) = .ok offsets ∧
      offsets2parents (.ofList offsets) = .ok parents ∧
      (parents.length : Int) = ([2, 0, 3] : List Int).sum ∧
      ∀ j : Nat, (j : Int) < ([2, 0, 3] : List Int).sum →
        ∃ g : Nat, g < ([2, 0, 3] : List Int).length ∧ parents[j]? = some (g : Int) ∧
          (([2, 0, 3] : List Int).take g).sum ≤ (j : Int) ∧
          (j : Int) < (([2, 0, 3] : List Int).take (g + 1)).sum ∧
          ∀ g2 : Nat, (([2, 0, 3] : List Int).take g2).sum ≤ (j : Int) →
            (j : Int) < (([2, 0, 3] : List Int).take (g2 + 1)).sum → g2 = g :=
  counts_inverse [2, 0, 3] (by decide)

/-! ## `startsstops2parents` -/

theorem foldlM_range'_inv {σ : Type} (f : σ → Nat → Except Err σ) (P : Nat → σ → Prop)
    (a n : Nat) (init : σ) (h0 : P a init)
    (hs : ∀ i, a ≤ i → i < a + n → ∀ s, P i s → ∃ s', f s i = .ok s' ∧ P (i + 1) s') :
    ∃ s, (List.range' a n).foldlM f init = .ok s ∧ P (a + n) s := by
  induction n with
  | zero => exact ⟨init, rfl, h0⟩
  | succ m ih =>
    obtain ⟨s, hs1, hs2⟩ := ih (fun i h1 h2 => hs i h1 (by omega))
    obtain ⟨s', h1, h2⟩ := hs (a + m) (by omega) (by omega) s hs2
    refine ⟨s', ?_, h2⟩
    rw [List.range'_concat, List.foldlM_append]
    refine bind_ok hs1 ?_
    simp only [one_mul, List.foldlM_cons, List.foldlM_nil]
    exact bind_ok h1 rfl

theorem init_loop (v : Int) (n : Nat) (p : List Int) (hp : p.length = n) :
    (List.range n).foldlM (fun (parents : List Int) (i : Nat) => wr parents i v) p =
      .ok (List.replicate n v) := by
  obtain ⟨s, hs, hlen, hget⟩ := foldlM_range_inv
    (fun (parents : List Int) (i : Nat) => wr parents i v)
    (fun i ps => ps.length = n ∧ ∀ x, x < i → ps[x]? = some v)
    n p ⟨hp, by intro x hx; omega⟩
    (by
      intro i hi ps ⟨hlen, hget⟩
      refine ⟨ps.set i v, wr_nat v (by omega), by simpa using hlen, ?_⟩
      intro x hx
      rcases Nat.lt_or_ge x i with h | h
      · rw [List.getElem?_set_ne (by omega)]
        exact hget x h
      · obtain rfl : x = i := by omega
        exact List.getElem?_set_self (by omega))
  rw [hs]
  congr 1
  apply List.ext_getElem?
  intro x
  rcases Nat.lt_or_ge x n with h | h
  · rw [hget x h, List.getElem?_replicate, if_pos h]
  · rw [List.getElem?_eq_none (by omega), List.getElem?_eq_none (by simp; omega)]

theorem rd_getD (o : List Int) (i : Nat) (h : i < o.length) :
    rd o ((i : Int) * 1) = .ok (o.getD i 0) := by
  rw [mul_one]
  apply rd_nat
  rw [List.getElem?_eq_getElem h, List.getD_eq_getElem _ _ h]

theorem wr_int {α : Type} (p : List α) (i : Int) (v : α) (h0 : 0 ≤ i) (h1 : i.toNat < p.length) :
    wr p i v = .ok (p.set i.toNat v) := by
  simp [wr, h0, h1]

theorem set_replicate_zero (n i : Nat) :
    (List.replicate n (0 : Int)).set i 0 = List.replicate n 0 := by
  apply List.ext_getElem?
  intro x
  rw [List.getElem?_set]
  by_cases h : i = x
  · subst h
    simp [List.getElem?_replicate]
  · rw [if_neg h]

theorem zero_loop (n : Nat) :
    (List.range n).foldlM
      (fun (s : List Int × List Int) (i : Nat) => do
        let starts ← wr s.1 i 0
        let stops ← wr s.2 i 0
        pure (starts, stops))
      (List.replicate n 0, List.replicate n 0) = .ok (List.replicate n 0, List.replicate n 0) := by
  obtain ⟨s, hs, hP⟩ := foldlM_range_inv
    (fun (s : List Int × List Int) (i : Nat) => do
      let starts ← wr s.1 i 0
      let stops ← wr s.2 i 0
      pure (starts, stops))
    (fun _ s => s = (List.replicate n 0, List.replicate n 0))
    n (List.replicate n 0, List.replicate n 0) rfl
    (by
      intro i hi s hs
      subst hs
      refine ⟨_, ?_, rfl⟩
      beta_reduce
      refine bind_ok (wr_nat 0 (by simpa using hi)) ?_
      refine bind_ok (wr_nat 0 (by simpa using hi)) ?_
      rw [set_replicate_zero]
      rfl)
  rw [hs, hP]
theorem cond_wr (a : List Int) (L : Nat) (ha : a.length = L) (t : Int) (v : Int) :
    ∃ b, (if t ≥ 0 ∧ t < (L : Int) then wr a t v else pure a) = .ok b ∧ b.length = L ∧
      ∀ g : Nat, g < L → b[g]? = if (g : Int) = t then some v else a[g]? := by
  by_cases h : t ≥ 0 ∧ t < (L : Int)
  · refine ⟨a.set t.toNat v, ?_, by simpa using ha, ?_⟩
    · rw [if_pos h]
      exact wr_int a t v h.1 (by omega)
    · intro g hg
      rw [List.getElem?_set]
      by_cases hgt : (g : Int) = t
      · rw [if_pos hgt, if_pos (by omega), if_pos (by omega)]
      · rw [if_neg hgt, if_neg (by omega)]
  · refine ⟨a, by rw [if_neg h]; rfl, ha, ?_⟩
    intro g hg
    rw [if_neg (by omega)]

theorem scan_step (p : Nat → Int) (L n : Nat) (parents : List Int)
    (hrd : ∀ k, k < n → rd parents ((k : Int) * 1) = .ok (p k))
    (hrun : ∀ i j k, i < j → j < k → k < n → 0 ≤ p i → p i = p k → p j = p i)
    (k : Nat) (hk : k < n) (s : List Int × List Int × Int) (hinv : ScanInv p L k s) :
    ∃ s2, (do
        let thisOne ← rd parents ((k : Int) * 1)
        let last := s.2.2
        if last ≠ thisOne then do
          let stops ← (if last ≥ 0 ∧ last < (L : Int) then wr s.2.1 last k else pure s.2.1)
          let starts ← (if thisOne ≥ 0 ∧ thisOne < (L : Int) then wr s.1 thisOne k else pure s.1)
          pure (starts, stops, thisOne)
        else pure (s.1, s.2.1, thisOne)) = .ok s2 ∧ ScanInv p L (k + 1) s2 := by
  obtain ⟨st, sp, last⟩ := s
  obtain ⟨hst, hsp, hlast, hinv⟩ := hinv
  dsimp only at hst hsp hlast hinv
  have hl0 : k = 0 → last = -1 := by intro h; rw [hlast, if_pos h]
  have hl1 : k ≠ 0 → last = p (k - 1) := by intro h; rw [hlast, if_neg h]
  by_cases heq : last = p k
  · refine ⟨(st, sp, p k), ?_, hst, hsp, ?_, ?_⟩
    · refine bind_ok (hrd k hk) ?_
      dsimp only
      rw [if_neg (not_not.mpr heq)]
      rfl
    · dsimp only
      rw [if_neg (by omega)]
      rfl
    · intro g hg
      obtain ⟨h1, h2, h3⟩ := hinv g hg
      dsimp only
      refine ⟨fun hno => h1 (fun i hi => hno i (by omega)), ?_, ?_⟩
      · intro i hi hpi hfirst
        rcases Nat.lt_or_ge i k with h | h
        · exact h2 i h hpi hfirst
        · obtain rfl : i = k := by omega
          exfalso
          by_cases hk0 : i = 0
          · have := hl0 hk0
            omega
          · have := hl1 hk0
            exact hfirst (i - 1) (by omega) (by omega)
      · intro hne i hi hpi hlo
        have hik : i ≠ k := by
          rintro rfl
          exact hne hpi.symm
        exact h3 (by rw [heq]; exact hne) i (by omega) hpi (fun i2 h1 h2 => hlo i2 h1 (by omega))
  · obtain ⟨sp2, hsp2, hsp2len, hsp2get⟩ := cond_wr sp L hsp last (k : Int)
    obtain ⟨st2, hst2, hst2len, hst2get⟩ := cond_wr st L hst (p k) (k : Int)
    refine ⟨(st2, sp2, p k), ?_, hst2len, hsp2len, ?_, ?_⟩
    · refine bind_ok (hrd k hk) ?_
      dsimp only
      rw [if_pos heq]
      refine bind_ok hsp2 ?_
      exact bind_ok hst2 rfl
    · dsimp only
      rw [if_neg (by omega)]
      rfl
    · intro g hg
      obtain ⟨h1, h2, h3⟩ := hinv g hg
      dsimp only
      rw [hst2get g hg, hsp2get g hg]
      refine ⟨?_, ?_, ?_⟩
      · intro hno
        have hgk : (g : Int) ≠ p k := fun h => hno k (by omega) h.symm
        have hgl : (g : Int) ≠ last := by
          by_cases hk0 : k = 0
          · have := hl0 hk0
            omega
          · rw [hl1 hk0]
            exact fun h => hno (k - 1) (by omega) h.symm
        rw [if_neg hgk, if_neg hgl]
        exact h1 (fun i hi => hno i (by omega))
      · intro i hi hpi hfirst
        by_cases hgk : (g : Int) = p k
        · rw [if_pos hgk]
          rcases Nat.lt_or_ge i k with h | h
          · exfalso
            have hk0 : k ≠ 0 := by omega
            have hlk := hl1 hk0
            rcases Nat.lt_or_ge i (k - 1) with h' | h'
            · have := hrun i (k - 1) k h' (by omega) hk (by omega) (by omega)
              omega
            · obtain rfl : i = k - 1 := by omega
              omega
          · obtain rfl : i = k := by omega
            rfl
        · rw [if_neg hgk]
          have hik : i ≠ k := by
            rintro rfl
            exact hgk hpi.symm
          exact h2 i (by omega) hpi hfirst
      · intro hne i hi hpi hlo
        have hik : i ≠ k := by
          rintro rfl
          exact hne hpi.symm
        by_cases hgl : (g : Int) = last
        · rw [if_pos hgl]
          have hk0 : k ≠ 0 := by
            intro h
            have := hl0 h
            omega
          have hlk := hl1 hk0
          rcases Nat.lt_or_ge i (k - 1) with h' | h'
          · exact absurd (by omega) (hlo (k - 1) h' (by omega))
          · obtain rfl : i = k - 1 := by omega
            congr 1
            omega
        · rw [if_neg hgl]
          exact h3 hgl i (by omega) hpi (fun i2 h1 h2 => hlo i2 h1 (by omega))
theorem parents2startsstops_spec (parents : List Int) (L : Nat)
    (hrange : ∀ i, i < parents.length → -1 ≤ parents.getD i 0 ∧ parents.getD i 0 < (L : Int))
    (hrun : ∀ i j k, i < j → j < k → k < parents.length → 0 ≤ parents.getD i 0 →
      parents.getD i 0 = parents.getD k 0 → parents.getD j 0 = parents.getD i 0) :
    ∃ st sp, parents2startsstops (.ofList parents) (L : Int) = .ok (st, sp) ∧
      st.length = L ∧ sp.length = L ∧
      ∀ g : Nat, g < L →
        ((∀ i, i < parents.length → parents.getD i 0 ≠ (g : Int)) →
          st[g]? = some 0 ∧ sp[g]? = some 0) ∧
        (∀ i, i < parents.length → parents.getD i 0 = (g : Int) →
          (∀ i2, i2 < i → parents.getD i2 0 ≠ (g : Int)) → st[g]? = some (i : Int)) ∧
        (∀ i, i < parents.length → parents.getD i 0 = (g : Int) →
          (∀ i2, i < i2 → i2 < parents.length → parents.getD i2 0 ≠ (g : Int)) →
          sp[g]? = some ((i : Int) + 1)) := by
  have hrd : ∀ k, k < parents.length → rd parents ((k : Int) * 1) = .ok (parents.getD k 0) :=
    rd_getD parents
  obtain ⟨p, hp⟩ : ∃ p : Nat → Int, ∀ i, parents.getD i 0 = p i := ⟨_, fun _ => rfl⟩
  simp only [hp] at hrange hrun hrd ⊢
  obtain ⟨⟨st, sp, last⟩, hs, hst, hsp, hlast, hinv⟩ := foldlM_range_inv
    (fun (s : List Int × List Int × Int) (k : Nat) => do
      let thisOne ← rd parents ((k : Int) * 1)
      let last := s.2.2
      if last ≠ thisOne then do
        let stops ← (if last ≥ 0 ∧ last < (L : Int) then wr s.2.1 last k else pure s.2.1)
        let starts ← (if thisOne ≥ 0 ∧ thisOne < (L : Int) then wr s.1 thisOne k else pure s.1)
        pure (starts, stops, thisOne)
      else pure (s.1, s.2.1, thisOne))
    (ScanInv p L) parents.length (List.replicate L 0, List.replicate L 0, -1)
    (by
      refine ⟨by simp, by simp, by simp, ?_⟩
      intro g hg
      refine ⟨fun _ => ?_, fun i hi => by omega, fun _ i hi => by omega⟩
      simp [List.getElem?_replicate, hg])
    (fun k hk s hinv => scan_step p L parents.length parents hrd hrun k hk s hinv)
  dsimp only at hst hsp hlast hinv
  have hl0 : parents.length = 0 → last = -1 := by intro h; rw [hlast, if_pos h]
  have hl1 : parents.length ≠ 0 → last = p (parents.length - 1) := by
    intro h; rw [hlast, if_neg h]
  -- the closing write
  have hclose : ∃ sp2, (if last ≠ -1 then wr sp last (parents.length : Int) else pure sp) =
      .ok sp2 ∧ sp2.length = L ∧
      ∀ g : Nat, g < L → sp2[g]? = if (g : Int) = last then some (parents.length : Int)
        else sp[g]? := by
    by_cases h : last ≠ -1
    · have hn : parents.length ≠ 0 := fun h0 => h (hl0 h0)
      have hr := hrange (parents.length - 1) (by omega)
      rw [← hl1 hn] at hr
      refine ⟨sp.set last.toNat (parents.length : Int), ?_, by simpa using hsp, ?_⟩
      · rw [if_pos h]
        exact wr_int sp last _ (by omega) (by omega)
      · intro g hg
        rw [List.getElem?_set]
        by_cases hgt : (g : Int) = last
        · rw [if_pos hgt, if_pos (by omega), if_pos (by omega)]
        · rw [if_neg hgt, if_neg (by omega)]
    · refine ⟨sp, by rw [if_neg h]; rfl, hsp, ?_⟩
      intro g hg
      rw [if_neg (by omega)]
  obtain ⟨sp2, hsp2, hsp2len, hsp2get⟩ := hclose
  refine ⟨st, sp2, ?_, hst, hsp2len, ?_⟩
  · unfold parents2startsstops
    refine bind_ok (N_ofList _) ?_
    rw [if_neg (by omega)]
    refine bind_ok (v := (L : Int)) rfl ?_
    refine bind_ok (array_t_nat L) ?_
    refine bind_ok (array_t_nat L) ?_
    rw [Int.toNat_ofNat]
    refine bind_ok (zero_loop L) ?_
    simp only [BufferInfo.ofList]
    refine bind_ok hs ?_
    dsimp only
    exact bind_ok hsp2 rfl
  · intro g hg
    obtain ⟨h1, h2, h3⟩ := hinv g hg
    rw [hsp2get g hg]
    refine ⟨?_, h2, ?_⟩
    · intro hno
      have hgl : (g : Int) ≠ last := by
        by_cases hn : parents.length = 0
        · have := hl0 hn
          omega
        · rw [hl1 hn]
          exact fun h => hno (parents.length - 1) (by omega) h.symm
      rw [if_neg hgl]
      exact h1 hno
    · intro i hi hpi hlo
      by_cases hgl : (g : Int) = last
      · rw [if_pos hgl]
        have hn : parents.length ≠ 0 := by omega
        have := hl1 hn
        rcases Nat.lt_or_ge i (parents.length - 1) with h' | h'
        · exact absurd (by omega) (hlo (parents.length - 1) h' (by omega))
        · congr 1
          omega
      · rw [if_neg hgl]
        exact h3 hgl i hi hpi hlo
/-- At `T = std::int64_t`: for an explicit length `L ≥ 0` and a `parents`
sequence whose values lie in `[-1, L)` and in which each value `g ≥ 0` occupies one run of adjacent
positions, `parents2startsstops(parents, L)` returns `starts` and `stops` of
length `L` with `starts[g]` the index of the first occurrence of `g`,
`stops[g]` one more than the index of its last occurrence, and
`starts[g] = stops[g] = 0` for every `g` in `[0, L)` that never occurs. -/
theorem parents2startsstops_runs (parents : List Int) (L : Int) (hL : 0 ≤ L)
    (hrange : ∀ v ∈ parents, -1 ≤ v ∧ v < L)
    (hrun : ∀ (i j k : Nat) (hij : i < j) (hjk : j < k) (hk : k < parents.length),
      0 ≤ parents[i] → parents[i] = parents[k] → parents[j] = parents[i]) :
    ∃ starts stops : List Int,
      parents2startsstops (.ofList parents) L = .ok (starts, stops) ∧
      (starts.length : Int) = L ∧ (stops.length : Int) = L ∧
      ∀ g : Nat, (g : Int) < L →
        ((∀ v ∈ parents, v ≠ (g : Int)) → starts[g]? = some 0 ∧ stops[g]? = some 0) ∧
        (∀ (k : Nat) (hk : k < parents.length), parents[k] = (g : Int) →
          (∀ (k2 : Nat) (h2 : k2 < k), parents[k2] ≠ (g : Int)) →
          starts[g]? = some (k : Int)) ∧
        (∀ (k : Nat) (hk : k < parents.length), parents[k] = (g : Int) →
          (∀ (k2 : Nat) (h2 : k2 < parents.length), k < k2 → parents[k2] ≠ (g : Int)) →
          stops[g]? = some ((k : Int) + 1)) := by
  obtain ⟨n, rfl⟩ : ∃ n : Nat, L = (n : Int) := ⟨L.toNat, (Int.toNat_of_nonneg hL).symm⟩
  obtain ⟨st, sp, hres, hst, hsp, hall⟩ := parents2startsstops_spec parents n
    (by
      intro i hi
      rw [List.getD_eq_getElem _ _ hi]
      exact hrange _ (List.getElem_mem hi))
    (by
      intro i j k hij hjk hk h0 he
      rw [List.getD_eq_getElem _ _ (by omega)] at h0 he ⊢
      rw [List.getD_eq_getElem _ _ hk] at he
      rw [List.getD_eq_getElem _ _ (by omega)]
      exact hrun i j k hij hjk hk h0 he)
  refine ⟨st, sp, hres, by rw [hst], by rw [hsp], ?_⟩
  intro g hg
  obtain ⟨h1, h2, h3⟩ := hall g (by omega)
  refine ⟨?_, ?_, ?_⟩
  · intro hno
    apply h1
    intro i hi
    rw [List.getD_eq_getElem _ _ hi]
    exact hno _ (List.getElem_mem hi)
  · intro k hk hpk hfirst
    apply h2 k hk
    · rw [List.getD_eq_getElem _ _ hk]; exact hpk
    · intro i2 hi2
      rw [List.getD_eq_getElem _ _ (by omega)]
      exact hfirst i2 hi2
  · intro k hk hpk hlast
    apply h3 k hk
    · rw [List.getD_eq_getElem _ _ hk]; exact hpk
    · intro i2 h1 h2
      rw [List.getD_eq_getElem _ _ h2]
      exact hlast i2 h2 h1

theorem parents2startsstops_runs_witness :
    ∃ starts stops : List Int,
      parents2startsstops (.ofList [1, 1, -1, 0]) 3 = .ok (starts, stops) ∧
      (starts.length : Int) = 3 ∧ (stops.length : Int) = 3 ∧
      ∀ g : Nat, (g : Int) < 3 →
        ((∀ v ∈ ([1, 1, -1, 0] : List Int), v ≠ (g : Int)) →
          starts[g]? = some 0 ∧ stops[g]? = some 0) ∧
        (∀ (k : Nat) (hk : k < ([1, 1, -1, 0] : List Int).length),
          ([1, 1, -1, 0] : List Int)[k] = (g : Int) →
          (∀ (k2 : Nat) (h2 : k2 < k), ([1, 1, -1, 0] : List Int)[k2] ≠ (g : Int)) →
          starts[g]? = some (k : Int)) ∧
        (∀ (k : Nat) (hk : k < ([1, 1, -1, 0] : List Int).length),
          ([1, 1, -1, 0] : List Int)[k] = (g : Int) →
          (∀ (k2 : Nat) (h2 : k2 < ([1, 1, -1, 0] : List Int).length), k < k2 →
            ([1, 1, -1, 0] : List Int)[k2] ≠ (g : Int)) →
          stops[g]? = some ((k : Int) + 1)) :=
  parents2startsstops_runs [1, 1, -1, 0] 3 (by decide) (by decide)
    (by
      intro i j k hij hjk hk
      have hk4 : k < 4 := hk
      interval_cases k <;> interval_cases j <;> interval_cases i <;> simp)

/-! ## `parents2startsstops` after `offsets2parents` -/

theorem auto_length_loop (ps : List Int) :
    ∃ m, (List.range ps.length).foldlM
        (fun (length : Int) (i : Nat) => do
          let p ← rd ps i
          if p > length then rd ps ((i : Int) * 1) else pure length)
        0 = .ok m ∧ 0 ≤ m ∧ ∀ i, i < ps.length → ps.getD i 0 ≤ m := by
  obtain ⟨m, hm, h0, hle⟩ := foldlM_range_inv
    (fun (length : Int) (i : Nat) => do
      let p ← rd ps i
      if p > length then rd ps ((i : Int) * 1) else pure length)
    (fun k m => 0 ≤ m ∧ ∀ i, i < k → ps.getD i 0 ≤ m)
    ps.length 0 ⟨le_refl _, fun i hi => by omega⟩
    (by
      intro k hk m ⟨h0, hle⟩
      have hc : ps[k]? = some (ps.getD k 0) := by
        rw [List.getElem?_eq_getElem hk, List.getD_eq_getElem _ _ hk]
      by_cases hgt : ps.getD k 0 > m
      · refine ⟨ps.getD k 0, ?_, by omega, ?_⟩
        · beta_reduce
          refine bind_ok (rd_nat hc) ?_
          rw [if_pos hgt, mul_one]
          exact rd_nat hc
        · intro i hi
          rcases Nat.lt_or_ge i k with h | h
          · have := hle i h
            omega
          · obtain rfl : i = k := by omega
            exact le_refl _
      · refine ⟨m, ?_, h0, ?_⟩
        · beta_reduce
          refine bind_ok (rd_nat hc) ?_
          rw [if_neg hgt]
          rfl
        · intro i hi
          rcases Nat.lt_or_ge i k with h | h
          · exact hle i h
          · obtain rfl : i = k := by omega
            omega)
  exact ⟨m, hm, h0, hle⟩

theorem parents2startsstops_auto (ps : List Int) (m : Int) (hm : 0 ≤ m)
    (hloop : (List.range ps.length).foldlM
        (fun (length : Int) (i : Nat) => do
          let p ← rd ps i
          if p > length then rd ps ((i : Int) * 1) else pure length)
        0 = .ok m) :
    parents2startsstops (.ofList ps) (-1) = parents2startsstops (.ofList ps) (m + 1) := by
  unfold parents2startsstops
  refine bind_ok (N_ofList _) ?_
  symm
  refine bind_ok (N_ofList _) ?_
  symm
  rw [if_pos (by omega), if_neg (by omega)]
  simp only [BufferInfo.ofList]
  refine bind_ok (bind_ok hloop rfl) ?_
  rfl
theorem roundtrip_core (offsets : List Int) (hmono : offsets.Chain' (· ≤ ·))
    (h0 : offsets[0]? = some 0) :
    ∃ ps st sp : List Int,
      offsets2parents (.ofList offsets) = .ok ps ∧
      parents2startsstops (.ofList ps) (-1) = .ok (st, sp) ∧
      ∀ g : Nat, g + 1 < offsets.length → offsets.getD g 0 < offsets.getD (g + 1) 0 →
        st[g]? = some (offsets.getD g 0) ∧ sp[g]? = some (offsets.getD (g + 1) 0) := by
  have hlen : 0 < offsets.length := (List.getElem?_eq_some.mp h0).1
  have hne : offsets ≠ [] := List.length_pos.mp hlen
  have hmo := getD_mono_of_chain offsets hmono
  have hz : offsets.getD 0 0 = 0 := by
    rw [List.getD_eq_getElem?_getD, h0]
    rfl
  have hpos : ∀ i, 0 ≤ offsets.getD i 0 := by
    intro i
    rcases Nat.lt_or_ge i offsets.length with hi | hi
    · have := hmo 0 i (by omega) hi
      omega
    · rw [List.getD_eq_default _ _ hi]
  obtain ⟨ps, hps, hpl, -, hgrp⟩ := offsets2parents_int offsets hne hpos hmo
  obtain ⟨a, ha⟩ : ∃ a : Nat → Nat, ∀ i, offsets.getD i 0 = (a i : Int) :=
    ⟨fun i => (offsets.getD i 0).toNat, fun i => (Int.toNat_of_nonneg (hpos i)).symm⟩
  simp only [ha] at hmo hz hgrp hpl ⊢
  have ham : ∀ i j, i ≤ j → j < offsets.length → a i ≤ a j := by
    intro i j hij hj
    have := hmo i j hij hj
    omega
  have hpl2 : ps.length = a (offsets.length - 1) := by omega
  -- every position lies in one group, whose index it holds
  have hin : ∀ x, x < ps.length → ∃ k, k + 1 < offsets.length ∧ a k ≤ x ∧ x < a (k + 1) ∧
      ps.getD x 0 = (k : Int) := by
    intro x hx
    obtain ⟨k, hk, hlo, hhi⟩ := exists_group (fun i => (a i : Int)) x (offsets.length - 1)
      (by dsimp only; omega) (by dsimp only; omega)
    refine ⟨k, by omega, by omega, by omega, ?_⟩
    have := hgrp k x (by omega) (by omega) (by omega)
    rw [List.getD_eq_getElem?_getD, this]
    rfl
  have hPmono : ∀ x y, x ≤ y → y < ps.length → ps.getD x 0 ≤ ps.getD y 0 := by
    intro x y hxy hy
    obtain ⟨k1, hk1, hlo1, hhi1, hv1⟩ := hin x (by omega)
    obtain ⟨k2, hk2, hlo2, hhi2, hv2⟩ := hin y hy
    rw [hv1, hv2]
    by_contra hcon
    have := ham (k2 + 1) k1 (by omega) (by omega)
    omega
  obtain ⟨m, hloop, hm0, hmle⟩ := auto_length_loop ps
  obtain ⟨L, hL⟩ : ∃ L : Nat, m + 1 = (L : Int) := ⟨(m + 1).toNat, by omega⟩
  obtain ⟨st, sp, hres, -, -, hall⟩ := parents2startsstops_spec ps L
    (by
      intro i hi
      obtain ⟨k, -, -, -, hv⟩ := hin i hi
      have := hmle i hi
      omega)
    (by
      intro i j k hij hjk hk _ he
      have h1 := hPmono i j (by omega) (by omega)
      have h2 := hPmono j k (by omega) hk
      omega)
  refine ⟨ps, st, sp, hps, ?_, ?_⟩
  · rw [parents2startsstops_auto ps m hm0 hloop, hL]
    exact hres
  · intro g hg hgne
    have hgne2 : a g < a (g + 1) := by omega
    have htop : a (g + 1) ≤ a (offsets.length - 1) := ham (g + 1) _ (by omega) (by omega)
    have hval : ∀ x, a g ≤ x → x < a (g + 1) → ps.getD x 0 = (g : Int) := by
      intro x h1 h2
      have := hgrp g x hg (by omega) (by omega)
      rw [List.getD_eq_getElem?_getD, this]
      rfl
    have hgL : g < L := by
      have h1 := hval (a g) (le_refl _) hgne2
      have h2 := hmle (a g) (by omega)
      omega
    obtain ⟨-, hfirst, hlast⟩ := hall g hgL
    constructor
    · apply hfirst (a g) (by omega) (hval (a g) (le_refl _) hgne2)
      intro i2 hi2 hcon
      obtain ⟨k, hk, hlo, hhi, hv⟩ := hin i2 (by omega)
      have : k = g := by omega
      subst this
      omega
    · have := hlast (a (g + 1) - 1) (by omega) (hval _ (by omega) (by omega))
        (by
          intro i2 h1 h2 hcon
          obtain ⟨k, hk, hlo, hhi, hv⟩ := hin i2 h2
          have : k = g := by omega
          subst this
          omega)
      rw [this]
      congr 1
      omega

/-- On a contiguous buffer, the round trip offsets, parents, starts and stops:
for a non-decreasing sequence `offsets` with `offsets[0] = 0`, `parents2startsstops` (length left
automatic) of `offsets2parents(offsets)` yields `starts[g] = offsets[g]` and
`stops[g] = offsets[g+1]` for every group `g` with `offsets[g] < offsets[g+1]`. -/
theorem offsets_parents_startsstops_roundtrip (offsets : List Int)
    (hmono : offsets.Chain' (· ≤ ·)) (h0 : offsets[0]? = some 0) :
    ∃ parents starts stops : List Int,
      offsets2parents (.ofList offsets) = .ok parents ∧
      parents2startsstops (.ofList parents) (-1) = .ok (starts, stops) ∧
      ∀ (g : Nat) (hg : g + 1 < offsets.length), offsets[g] < offsets[g + 1] →
        starts[g]? = some offsets[g] ∧ stops[g]? = some offsets[g + 1] := by
  obtain ⟨ps, st, sp, h1, h2, h3⟩ := roundtrip_core offsets hmono h0
  refine ⟨ps, st, sp, h1, h2, ?_⟩
  intro g hg hlt
  have := h3 g hg (by
    rw [List.getD_eq_getElem _ _ hg, List.getD_eq_getElem _ _ (by omega)]
    exact hlt)
  rwa [List.getD_eq_getElem _ _ hg, List.getD_eq_getElem _ _ (by omega)] at this

theorem offsets_parents_startsstops_roundtrip_witness :
    ∃ parents starts stops : List Int,
      offsets2parents (.ofList [0, 2, 2, 5]) = .ok parents ∧
      parents2startsstops (.ofList parents) (-1) = .ok (starts, stops) ∧
      ∀ (g : Nat) (hg : g + 1 < ([0, 2, 2, 5] : List Int).length),
        ([0, 2, 2, 5] : List Int)[g] < ([0, 2, 2, 5] : List Int)[g + 1] →
        starts[g]? = some ([0, 2, 2, 5] : List Int)[g] ∧
          stops[g]? = some ([0, 2, 2, 5] : List Int)[g + 1] :=
  offsets_parents_startsstops_roundtrip [0, 2, 2, 5] (by simp) (by simp)

/-! ## `uniques2offsetsparents` -/

theorem boundaries_succ (d : Nat → Bool) (k : Nat) :
    boundaries d (k + 1) = boundaries d k ++ (if d k = true then [(k : Int) + 1] else []) := by
  unfold boundaries
  rw [List.range_succ, List.filter_append, List.map_append]
  by_cases h : d k = true
  · simp [List.filter, h]
  · simp [List.filter, h]

theorem runIndex_succ (d : Nat → Bool) (k : Nat) :
    runIndex d (k + 1) = runIndex d k + (if d k = true then 1 else 0) := by
  unfold runIndex
  rw [List.range_succ, List.filter_append, List.length_append]
  by_cases h : d k = true
  · simp [List.filter, h]
  · simp [List.filter, h]

theorem runIndex_zero (d : Nat → Bool) : runIndex d 0 = 0 := by
  simp [runIndex]

theorem length_boundaries (d : Nat → Bool) (k : Nat) :
    ((boundaries d k).length : Int) = runIndex d k := by
  simp [boundaries, runIndex]

theorem length_boundaries_mono (d : Nat → Bool) (k m : Nat) (h : k ≤ m) :
    (boundaries d k).length ≤ (boundaries d m).length := by
  simp only [boundaries, List.length_map]
  exact ((List.range_sublist.mpr h).filter d).length_le

theorem mem_boundaries (d : Nat → Bool) (m : Nat) (v : Int) :
    v ∈ boundaries d m ↔ ∃ i, i < m ∧ d i = true ∧ v = (i : Int) + 1 := by
  simp only [boundaries, List.mem_map, List.mem_filter, List.mem_range]
  constructor
  · rintro ⟨i, ⟨h1, h2⟩, rfl⟩
    exact ⟨i, h1, h2, rfl⟩
  · rintro ⟨i, h1, h2, rfl⟩
    exact ⟨i, ⟨h1, h2⟩, rfl⟩

/-- First loop of `uniques2offsetsparents`: the change flags and their count. -/
theorem temp_loop (uniques : List Int) :
    ∃ temp : List Bool, (List.range (uniques.length - 1)).foldlM
        (fun (s : List Bool × Int) (i : Nat) => do
          let a ← rd uniques ((i : Int) * 1)
          let b ← rd uniques (((i : Int) + 1) * 1)
          if a ≠ b then do
            let tempArray ← wr s.1 i true
            pure (tempArray, s.2 + 1)
          else do
            let tempArray ← wr s.1 i false
            pure (tempArray, s.2))
        (List.replicate (uniques.length - 1) default, 0) =
          .ok (temp, runIndex (differs uniques) (uniques.length - 1)) ∧
      temp.length = uniques.length - 1 ∧
      ∀ i, i < uniques.length - 1 → temp[i]? = some (differs uniques i) := by
  obtain ⟨⟨temp, cnt⟩, hs, hlen, hget, hcnt⟩ := foldlM_range_inv
    (fun (s : List Bool × Int) (i : Nat) => do
      let a ← rd uniques ((i : Int) * 1)
      let b ← rd uniques (((i : Int) + 1) * 1)
      if a ≠ b then do
        let tempArray ← wr s.1 i true
        pure (tempArray, s.2 + 1)
      else do
        let tempArray ← wr s.1 i false
        pure (tempArray, s.2))
    (fun k s => s.1.length = uniques.length - 1 ∧
      (∀ i, i < k → s.1[i]? = some (differs uniques i)) ∧
      s.2 = runIndex (differs uniques) k)
    (uniques.length - 1) (List.replicate (uniques.length - 1) default, 0)
    ⟨by simp, fun i hi => by omega, by simp [runIndex]⟩
    (by
      rintro k hk ⟨temp, cnt⟩ ⟨hlen, hget, hcnt⟩
      dsimp only at hlen hget hcnt
      have ha := rd_getD uniques k (by omega)
      have hb := rd_getD uniques (k + 1) (by omega)
      have e : (((k + 1 : Nat) : Int)) = (k : Int) + 1 := by push_cast; rfl
      rw [e] at hb
      refine ⟨(temp.set k (differs uniques k), runIndex (differs uniques) (k + 1)), ?_, ?_, ?_, ?_⟩
      · beta_reduce
        refine bind_ok ha ?_
        refine bind_ok hb ?_
        rw [runIndex_succ, hcnt]
        by_cases hd : uniques.getD k 0 ≠ uniques.getD (k + 1) 0
        · have hdk : differs uniques k = true := decide_eq_true hd
          rw [if_pos hd, hdk]
          refine bind_ok (wr_nat true (by dsimp only; omega)) ?_
          simp [pure, Except.pure]
        · have hdk : differs uniques k = false := decide_eq_false hd
          rw [if_neg hd, hdk]
          refine bind_ok (wr_nat false (by dsimp only; omega)) ?_
          simp [pure, Except.pure]
      · simpa using hlen
      · intro i hi
        dsimp only
        rcases Nat.lt_or_ge i k with h | h
        · rw [List.getElem?_set_ne (by omega)]
          exact hget i h
        · obtain rfl : i = k := by omega
          exact List.getElem?_set_self (by omega)
      · rfl)
  dsimp only at hlen hget hcnt
  subst hcnt
  exact ⟨temp, hs, hlen, hget⟩
theorem set_append_replicate (l : List Int) (r : Nat) (v : Int) :
    (l ++ List.replicate (r + 1) 0).set l.length v = (l ++ [v]) ++ List.replicate r 0 := by
  rw [List.set_append, if_neg (by omega), Nat.sub_self, List.replicate_succ, List.set_cons_zero,
    List.append_assoc]
  rfl

/-- Second loop of `uniques2offsetsparents`: the positions of the changes. -/
theorem changes_loop (d : Nat → Bool) (m : Nat) (temp : List Bool) (htl : temp.length = m)
    (hget : ∀ i, i < m → temp[i]? = some (d i)) :
    ∃ idx : Int, (List.range temp.length).foldlM
        (fun (s : List Int × Int) (i : Nat) => do
          let b ← rd temp i
          if b = true then do
            let changes ← wr s.1 s.2 ((i : Int) + 1)
            pure (changes, s.2 + 1)
          else pure s)
        (List.replicate (boundaries d m).length 0, 0) = .ok (boundaries d m, idx) := by
  obtain ⟨s, hs, hP⟩ := foldlM_range_inv
    (fun (s : List Int × Int) (i : Nat) => do
      let b ← rd temp i
      if b = true then do
        let changes ← wr s.1 s.2 ((i : Int) + 1)
        pure (changes, s.2 + 1)
      else pure s)
    (fun k s => s = (boundaries d k ++
        List.replicate ((boundaries d m).length - (boundaries d k).length) 0,
      ((boundaries d k).length : Int)))
    m (List.replicate (boundaries d m).length 0, 0)
    (by simp [boundaries])
    (by
      intro k hk s hs
      subst hs
      have hmono := length_boundaries_mono d (k + 1) m (by omega)
      have hsucc := boundaries_succ d k
      by_cases hd : d k = true
      · rw [if_pos hd] at hsucc
        have hl : (boundaries d (k + 1)).length = (boundaries d k).length + 1 := by
          rw [hsucc]; simp
        obtain ⟨r, hr⟩ : ∃ r, (boundaries d m).length - (boundaries d k).length = r + 1 :=
          ⟨(boundaries d m).length - (boundaries d k).length - 1, by omega⟩
        refine ⟨_, ?_, rfl⟩
        beta_reduce
        refine bind_ok (rd_nat (hget k hk)) ?_
        rw [if_pos hd]
        dsimp only
        refine bind_ok (wr_nat _ (by simp; omega)) ?_
        rw [hr, set_append_replicate, ← hsucc, hl]
        have hr2 : (boundaries d m).length - ((boundaries d k).length + 1) = r := by omega
        rw [hr2]
        simp [pure, Except.pure]
      · rw [if_neg hd, List.append_nil] at hsucc
        refine ⟨_, ?_, rfl⟩
        beta_reduce
        refine bind_ok (rd_nat (hget k hk)) ?_
        rw [if_neg hd, hsucc]
        rfl)
  refine ⟨((boundaries d m).length : Int), ?_⟩
  rw [htl, hs, hP]
  simp
/-- Third loop of `uniques2offsetsparents`: the changes between `0` and the
length. -/
theorem offsets_loop (B : List Int) (n : Int) (offs : List Int)
    (hlen : offs.length = B.length + 2) (h0 : offs[0]? = some 0)
    (hl : offs[B.length + 1]? = some n) :
    (List.range' 1 (offs.length - 2)).foldlM
      (fun (offsets : List Int) (i : Nat) => do
        let v ← rd B ((i : Int) - 1)
        wr offsets i v)
      offs = .ok (0 :: (B ++ [n])) := by
  obtain ⟨s, hs, hslen, hs0, hsl, hsget⟩ := foldlM_range'_inv
    (fun (offsets : List Int) (i : Nat) => do
      let v ← rd B ((i : Int) - 1)
      wr offsets i v)
    (fun i o => o.length = B.length + 2 ∧ o[0]? = some 0 ∧ o[B.length + 1]? = some n ∧
      ∀ t, 1 ≤ t → t < i → o[t]? = B[t - 1]?)
    1 (offs.length - 2) offs
    ⟨hlen, h0, hl, fun t h1 h2 => by omega⟩
    (by
      intro i hi1 hi2 o ⟨holen, ho0, hol, hoget⟩
      have hib : i - 1 < B.length := by omega
      have e : ((i : Int) - 1) = ((i - 1 : Nat) : Int) := by omega
      refine ⟨o.set i B[i - 1], ?_, by simpa using holen, ?_, ?_, ?_⟩
      · beta_reduce
        rw [e]
        refine bind_ok (rd_nat (List.getElem?_eq_getElem hib)) ?_
        exact wr_nat _ (by omega)
      · rw [List.getElem?_set_ne (by omega)]
        exact ho0
      · rw [List.getElem?_set_ne (by omega)]
        exact hol
      · intro t ht1 ht2
        rcases Nat.lt_or_ge t i with h | h
        · rw [List.getElem?_set_ne (by omega)]
          exact hoget t ht1 h
        · obtain rfl : t = i := by omega
          rw [List.getElem?_set_self (by omega), List.getElem?_eq_getElem hib])
  rw [hs]
  congr 1
  apply List.ext_getElem?
  intro t
  rcases Nat.eq_zero_or_pos t with rfl | htpos
  · rw [hs0, List.getElem?_cons_zero]
  · obtain ⟨u, rfl⟩ : ∃ u, t = u + 1 := ⟨t - 1, by omega⟩
    rw [List.getElem?_cons_succ]
    rcases Nat.lt_or_ge u B.length with h | h
    · rw [hsget (u + 1) (by omega) (by omega), List.getElem?_append_left h]
      rfl
    · rw [List.getElem?_append_right h]
      rcases Nat.eq_or_lt_of_le h with h2 | h2
      · rw [← h2, hsl]
        simp
      · rw [List.getElem?_eq_none (by omega), List.getElem?_eq_none (by simp; omega)]

/-- Fifth loop of `uniques2offsetsparents`: a mark at every change. -/
theorem marks_loop (B : List Int) (n : Nat) (hB : ∀ v ∈ B, 0 ≤ v ∧ v < (n : Int)) :
    ∃ ps : List Int, (List.range B.length).foldlM
        (fun (parents : List Int) (i : Nat) => do
          let v ← rd B i
          wr parents v 1)
        (List.replicate n 0) = .ok ps ∧ ps.length = n ∧
      ∀ j, j < n → ps[j]? = some (if (j : Int) ∈ B then 1 else 0) := by
  obtain ⟨ps, hps, hlen, hget⟩ := foldlM_range_inv
    (fun (parents : List Int) (i : Nat) => do
      let v ← rd B i
      wr parents v 1)
    (fun k ps => ps.length = n ∧
      ∀ j, j < n → ps[j]? = some (if (j : Int) ∈ B.take k then 1 else 0))
    B.length (List.replicate n 0)
    (by
      refine ⟨by simp, ?_⟩
      intro j hj
      simp [List.getElem?_replicate, hj])
    (by
      intro k hk ps ⟨hlen, hget⟩
      have hv := hB _ (List.getElem_mem hk)
      refine ⟨ps.set B[k].toNat 1, ?_, by simpa using hlen, ?_⟩
      · beta_reduce
        refine bind_ok (rd_nat (List.getElem?_eq_getElem hk)) ?_
        exact wr_int ps _ 1 hv.1 (by omega)
      · intro j hj
        rw [List.take_succ, List.getElem?_eq_getElem hk, List.getElem?_set]
        simp only [Option.toList, List.mem_append, List.mem_singleton]
        by_cases hjv : B[k].toNat = j
        · rw [if_pos hjv, if_pos (by omega), if_pos (Or.inr (by omega))]
        · rw [if_neg hjv, hget j hj]
          by_cases hm : (j : Int) ∈ List.take k B
          · rw [if_pos hm, if_pos (Or.inl hm)]
          · rw [if_neg hm, if_neg]
            rintro (h | h)
            · exact hm h
            · omega)
  refine ⟨ps, hps, hlen, ?_⟩
  intro j hj
  rw [hget j hj, List.take_length]

/-- Sixth loop of `uniques2offsetsparents`: the running sum of the marks. -/
theorem sums_loop (d : Nat → Bool) (n : Nat) (ps : List Int) (hlen : ps.length = n)
    (hget : ∀ j, j < n → ps[j]? = some (if (j : Int) ∈ boundaries d (n - 1) then 1 else 0)) :
    (List.range' 1 (ps.length - 1)).foldlM
      (fun (parents : List Int) (i : Nat) => do
        let a ← rd parents i
        let b ← rd parents ((i : Int) - 1)
        wr parents i (a + b))
      ps = .ok ((List.range n).map (runIndex d)) := by
  have hmark : ∀ j, 1 ≤ j → j < n →
      ((j : Int) ∈ boundaries d (n - 1) ↔ d (j - 1) = true) := by
    intro j h1 h2
    rw [mem_boundaries]
    constructor
    · rintro ⟨i, hi, hdi, he⟩
      obtain rfl : i = j - 1 := by omega
      exact hdi
    · intro hd
      exact ⟨j - 1, by omega, hd, by omega⟩
  have hzero : ¬ ((0 : Nat) : Int) ∈ boundaries d (n - 1) := by
    rw [mem_boundaries]
    rintro ⟨i, _, _, he⟩
    omega
  obtain ⟨s, hs, hslen, hdone, htodo⟩ := foldlM_range'_inv
    (fun (parents : List Int) (i : Nat) => do
      let a ← rd parents i
      let b ← rd parents ((i : Int) - 1)
      wr parents i (a + b))
    (fun i q => q.length = n ∧
      (∀ j, j < i → j < n → q[j]? = some (runIndex d j)) ∧
      (∀ j, i ≤ j → j < n →
        q[j]? = some (if (j : Int) ∈ boundaries d (n - 1) then 1 else 0)))
    1 (ps.length - 1) ps
    (by
      refine ⟨hlen, ?_, fun j _ hj => hget j hj⟩
      intro j hj1 hjn
      obtain rfl : j = 0 := by omega
      rw [hget 0 hjn, if_neg hzero, runIndex_zero])
    (by
      intro i hi1 hi2 q ⟨hqlen, hdone, htodo⟩
      have hin : i < n := by omega
      have e : ((i : Int) - 1) = ((i - 1 : Nat) : Int) := by omega
      refine ⟨q.set i (runIndex d i), ?_, by simpa using hqlen, ?_, ?_⟩
      · beta_reduce
        refine bind_ok (rd_nat (htodo i (le_refl _) hin)) ?_
        rw [e]
        refine bind_ok (rd_nat (hdone (i - 1) (by omega) (by omega))) ?_
        have hsum : (if (i : Int) ∈ boundaries d (n - 1) then (1 : Int) else 0) +
            runIndex d (i - 1) = runIndex d i := by
          have h1 := runIndex_succ d (i - 1)
          have e2 : i - 1 + 1 = i := by omega
          rw [e2] at h1
          rw [h1]
          by_cases hd : d (i - 1) = true
          · rw [if_pos ((hmark i hi1 hin).mpr hd), if_pos hd]
            ring
          · rw [if_neg (fun h => hd ((hmark i hi1 hin).mp h)), if_neg hd]
            ring
        rw [hsum]
        exact wr_nat _ (by omega)
      · intro j hj1 hjn
        rcases Nat.lt_or_ge j i with h | h
        · rw [List.getElem?_set_ne (by omega)]
          exact hdone j h hjn
        · obtain rfl : j = i := by omega
          exact List.getElem?_set_self (by omega)
      · intro j hj1 hjn
        rw [List.getElem?_set_ne (by omega)]
        exact htodo j (by omega) hjn)
  rw [hs]
  congr 1
  apply List.ext_getElem?
  intro j
  rcases Nat.lt_or_ge j n with h | h
  · rw [hdone j (by omega) h, List.getElem?_map, List.getElem?_range h]
    rfl
  · rw [List.getElem?_eq_none (by omega), List.getElem?_eq_none (by simp; omega)]
theorem uniques2offsetsparents_closed (uniques : List Int) :
    uniques2offsetsparents (.ofList uniques) =
      .ok (0 :: (boundaries (differs uniques) (uniques.length - 1) ++ [(uniques.length : Int)]),
        (List.range uniques.length).map (runIndex (differs uniques))) := by
  obtain ⟨temp, htemp, htl, htget⟩ := temp_loop uniques
  obtain ⟨idx, hchg⟩ := changes_loop (differs uniques) (uniques.length - 1) temp htl htget
  obtain ⟨ps, hps, hpl, hpget⟩ := marks_loop (boundaries (differs uniques) (uniques.length - 1))
    uniques.length (by
      intro v hv
      obtain ⟨i, hi, -, rfl⟩ := (mem_boundaries _ _ _).mp hv
      omega)
  have hsum := sums_loop (differs uniques) uniques.length ps hpl hpget
  have e1 : (if (BufferInfo.ofList uniques).size < 1 then (0 : Int)
      else ((BufferInfo.ofList uniques).size : Int) - 1) = ((uniques.length - 1 : Nat) : Int) := by
    simp only [BufferInfo.ofList]
    split <;> omega
  have e2 : (((BufferInfo.ofList uniques).size : Int) - 1).toNat = uniques.length - 1 := by
    simp only [BufferInfo.ofList]
    omega
  unfold uniques2offsetsparents
  refine bind_ok (N_ofList _) ?_
  dsimp only
  rw [e1, e2]
  refine bind_ok (array_t_nat _) ?_
  simp only [BufferInfo.ofList]
  refine bind_ok htemp ?_
  dsimp only
  rw [← length_boundaries]
  refine bind_ok (array_t_nat _) ?_
  refine bind_ok hchg ?_
  dsimp only
  obtain ⟨B, hB⟩ : ∃ B, B = boundaries (differs uniques) (uniques.length - 1) := ⟨_, rfl⟩
  rw [← hB] at hps hpget ⊢
  have e3 : ((B.length : Int) + 2) = ((B.length + 2 : Nat) : Int) := by push_cast; rfl
  rw [e3]
  refine bind_ok (array_t_nat _) ?_
  refine bind_ok (wr_int _ 0 0 (le_refl _) (by simp)) ?_
  have hw2 : ∃ o2 : List Int,
      wr ((List.replicate (B.length + 2) (default : Int)).set (0 : Int).toNat 0)
        ((((List.replicate (B.length + 2) (default : Int)).set (0 : Int).toNat 0).length : Int) - 1)
        (uniques.length : Int) = .ok o2 ∧
      o2.length = B.length + 2 ∧ o2[0]? = some 0 ∧ o2[B.length + 1]? = some (uniques.length : Int) := by
    refine ⟨_, wr_int _ _ _ (by simp; omega) (by simp; omega), by simp, ?_, ?_⟩
    · rw [List.getElem?_set_ne (by simp; omega)]
      simp
    · have e : (((List.replicate (B.length + 2) (default : Int)).set (0 : Int).toNat 0).length : Int)
          - 1 = ((B.length + 1 : Nat) : Int) := by simp; omega
      rw [e, Int.toNat_ofNat]
      exact List.getElem?_set_self (by simp)
  obtain ⟨o2, ho2, ho2len, ho20, ho2l⟩ := hw2
  refine bind_ok ho2 ?_
  refine bind_ok (offsets_loop B _ o2 ho2len ho20 ho2l) ?_
  refine bind_ok (array_t_nat _) ?_
  rw [List.length_replicate]
  refine bind_ok (init_loop 0 _ _ (by simp)) ?_
  refine bind_ok hps ?_
  refine bind_ok hsum ?_
  rfl
theorem boundaries_congr (d e : Nat → Bool) (m : Nat) (h : ∀ i, i < m → d i = e i) :
    boundaries d m = boundaries e m := by
  unfold boundaries
  rw [List.filter_congr (fun i hi => h i (List.mem_range.mp hi))]

theorem runIndex_congr (d e : Nat → Bool) (j : Nat) (h : ∀ i, i < j → d i = e i) :
    runIndex d j = runIndex e j := by
  unfold runIndex
  rw [List.filter_congr (fun i hi => h i (List.mem_range.mp hi))]

theorem differs_runIndex (d : Nat → Bool) (n i : Nat) (hi : i + 1 < n) :
    differs ((List.range n).map (runIndex d)) i = d i := by
  unfold differs
  have h1 : ((List.range n).map (runIndex d)).getD i 0 = runIndex d i := by
    rw [List.getD_eq_getElem _ _ (by simp; omega)]
    simp
  have h2 : ((List.range n).map (runIndex d)).getD (i + 1) 0 = runIndex d (i + 1) := by
    rw [List.getD_eq_getElem _ _ (by simp; omega)]
    simp
  rw [h1, h2, runIndex_succ]
  by_cases hd : d i = true
  · rw [if_pos hd, hd]
    exact decide_eq_true (by omega)
  · rw [if_neg hd]
    have : d i = false := by simpa using hd
    rw [this]
    exact decide_eq_false (by omega)

/-- C5. For a sequence `uniques` of length `n`, `uniques2offsetsparents`
returns `offsets = [0] ++ [i + 1 for each i < n - 1 with uniques[i] ≠ uniques[i+1],
in increasing order] ++ [n]` and `parents` of length `n` with `parents[j]` the
number of positions `i < j` with `uniques[i] ≠ uniques[i+1]`; and for the empty
sequence it returns `([0, 0], [])`. -/
theorem uniques2offsetsparents_runs (uniques : List Int) :
    uniques2offsetsparents (.ofList uniques) = .ok
      ([0] ++ ((List.range (uniques.length - 1)).filter
          (fun i => decide (uniques.getD i 0 ≠ uniques.getD (i + 1) 0))).map
            (fun (i : Nat) => (i : Int) + 1) ++ [(uniques.length : Int)],
        (List.range uniques.length).map (fun (j : Nat) =>
          (((List.range j).filter
            (fun i => decide (uniques.getD i 0 ≠ uniques.getD (i + 1) 0))).length : Int))) ∧
    uniques2offsetsparents (.ofList []) = .ok ([0, 0], []) := by
  refine ⟨?_, by decide⟩
  rw [uniques2offsetsparents_closed]
  rfl

/-- C8. Uniques idempotence: if `(offsets, parents)` is the result of
`uniques2offsetsparents(uniques)`, then `uniques2offsetsparents(parents)`
returns the same offsets and the same parents. -/
theorem uniques2offsetsparents_idempotent (uniques : List Int) :
    ∃ offsets parents : List Int,
      uniques2offsetsparents (.ofList uniques) = .ok (offsets, parents) ∧
      uniques2offsetsparents (.ofList parents) = .ok (offsets, parents) := by
  refine ⟨_, _, uniques2offsetsparents_closed uniques, ?_⟩
  rw [uniques2offsetsparents_closed]
  have hlen : ((List.range uniques.length).map (runIndex (differs uniques))).length =
      uniques.length := by simp
  rw [hlen]
  have hb := boundaries_congr
    (differs ((List.range uniques.length).map (runIndex (differs uniques))))
    (differs uniques) (uniques.length - 1)
    (fun i hi => differs_runIndex (differs uniques) uniques.length i (by omega))
  rw [hb]
  congr 2
  apply List.map_congr_left
  intro j hj
  have hj2 := List.mem_range.mp hj
  exact runIndex_congr _ _ j
    (fun i hi => differs_runIndex (differs uniques) uniques.length i (by omega))

/-! ## `__getitem__` -/

theorem copyRow_spec (content : List Int) (cnt : Nat) :
    ∀ (out : List Int) (s h : Nat), s + cnt ≤ content.length → h + cnt ≤ out.length →
      ∃ q, copyRow content cnt out (s : Int) (h : Int) = .ok q ∧ q.length = out.length ∧
        ∀ x, q[x]? = if h ≤ x ∧ x < h + cnt then content[s + (x - h)]? else out[x]? := by
  induction cnt with
  | zero =>
    intro out s h _ _
    refine ⟨out, rfl, rfl, ?_⟩
    intro x
    rw [if_neg (by omega)]
  | succ n ih =>
    intro out s h hs hh
    obtain ⟨q, hq, hlen, hget⟩ := ih (out.set h content[s]) (s + 1) (h + 1) (by omega)
      (by simp; omega)
    refine ⟨q, ?_, by simpa using hlen, ?_⟩
    · unfold copyRow
      refine bind_ok (rd_nat (List.getElem?_eq_getElem (by omega))) ?_
      refine bind_ok (wr_nat _ (by omega)) ?_
      have e1 : ((s : Int) + 1) = ((s + 1 : Nat) : Int) := by push_cast; rfl
      have e2 : ((h : Int) + 1) = ((h + 1 : Nat) : Int) := by push_cast; rfl
      rw [e1, e2]
      exact hq
    · intro x
      rw [hget x, List.getElem?_set]
      by_cases h1 : h = x
      · subst h1
        rw [if_neg (by omega), if_pos rfl, if_pos (by omega), if_pos (by omega)]
        simp only [Nat.sub_self, Nat.add_zero]
        exact (List.getElem?_eq_getElem (by omega)).symm
      · by_cases h2 : h + 1 ≤ x ∧ x < h + 1 + n
        · rw [if_pos h2, if_pos (by omega)]
          congr 1
          omega
        · rw [if_neg h2, if_neg h1, if_neg (by omega)]

/-- What `__getitem__` does on a row of a jagged array over flat contiguous
content: the bounds test of line 421, then the slice. -/
theorem getitem_flat (starts stops content : List Int) (i : Nat)
    (hi : i < starts.length) (hle : starts.length ≤ stops.length) :
    __getitem__ (.flat starts stops content) (i : Int) =
      if starts.getD i 0 ≥ (content.length : Int) ∨ starts.getD i 0 < 0 ∨
          stops.getD i 0 > (content.length : Int) ∨ stops.getD i 0 < 0 then
        .error .out_of_range
      else if stops.getD i 0 ≥ starts.getD i 0 then
        .ok ((content.drop (starts.getD i 0).toNat).take
          (stops.getD i 0 - starts.getD i 0).toNat)
      else .error .out_of_range := by
  have hrs : rd starts (i : Int) = .ok (starts.getD i 0) := by
    have := rd_getD starts i hi
    rwa [mul_one] at this
  have hrt : rd stops (i : Int) = .ok (stops.getD i 0) := by
    have := rd_getD stops i (by omega)
    rwa [mul_one] at this
  obtain ⟨a, ha⟩ : ∃ a, a = starts.getD i 0 := ⟨_, rfl⟩
  obtain ⟨b, hb⟩ : ∃ b, b = stops.getD i 0 := ⟨_, rfl⟩
  rw [← ha] at hrs ⊢
  rw [← hb] at hrt ⊢
  unfold __getitem__
  simp only [JaggedArraySrc.flat, JaggedArraySrc.starts, JaggedArraySrc.stops,
    JaggedArraySrc.content_type, JaggedArraySrc.content_array, BufferInfo.ofList]
  rw [if_neg (by omega), if_neg (by omega), if_neg (by omega), if_neg (by simp)]
  refine bind_ok hrs ?_
  refine bind_ok hrt ?_
  rw [if_pos trivial, if_pos trivial]
  refine bind_ok (v := (8 : Int)) rfl ?_
  rw [if_pos rfl]
  by_cases hb1 : a ≥ (content.length : Int) ∨ a < 0 ∨ b > (content.length : Int) ∨ b < 0
  · rw [if_pos hb1, if_pos hb1]
  · rw [if_neg hb1, if_neg hb1]
    by_cases hb2 : b ≥ a
    · rw [if_pos hb2, if_pos hb2]
      have e : (b - a) = (((b - a).toNat : Nat) : Int) := by omega
      have hal : (array_t (b - a) : Except Err (List Int)) =
          .ok (List.replicate (b - a).toNat default) := by
        conv_lhs => rw [e]
        exact array_t_nat _
      refine bind_ok hal ?_
      obtain ⟨q, hq, hlen, hget⟩ := copyRow_spec content (b - a).toNat
        (List.replicate (b - a).toNat default) a.toNat 0 (by omega) (by simp)
      have ea : ((a.toNat : Nat) : Int) = a := by omega
      rw [ea] at hq
      rw [show ((0 : Nat) : Int) = 0 from rfl] at hq
      rw [hq]
      congr 1
      apply List.ext_getElem?
      intro x
      rw [hget x, List.getElem?_take, List.getElem?_drop]
      by_cases hx : x < (b - a).toNat
      · rw [if_pos ⟨by omega, by omega⟩, if_pos hx]
        rfl
      · rw [if_neg (by omega), if_neg hx]
        exact List.getElem?_eq_none (by simp; omega)
    · rw [if_neg hb2, if_neg hb2]

/-- C9. A jagged array whose last row is empty and ends the content
(`start = stop = len(content)`, so `0 ≤ start ≤ stop ≤ len(content)`): the
claim gives the empty slice, `__getitem__` fails with `out_of_range`. -/
theorem getitem_rejects_trailing_empty_row :
    rd (JaggedArraySrc.flat [0, 2, 5] [2, 5, 5] [10, 20, 30, 40, 50]).starts.ptr 2 = .ok 5 ∧
    rd (JaggedArraySrc.flat [0, 2, 5] [2, 5, 5] [10, 20, 30, 40, 50]).stops.ptr 2 = .ok 5 ∧
    (JaggedArraySrc.flat [0, 2, 5] [2, 5, 5] [10, 20, 30, 40, 50]).content_array.size = 5 ∧
    __getitem__ (.flat [0, 2, 5] [2, 5, 5] [10, 20, 30, 40, 50]) 2 = .error .out_of_range := by
  decide

/-- C10. Negative-index access: for `n = len(starts)` rows and `1 ≤ k ≤ n`,
`__getitem__(-k)` is `__getitem__(n - k)`: the same sequence or the same
failure. -/
theorem getitem_negative_index (self : JaggedArraySrc) (k : Int) (h1 : 1 ≤ k)
    (h2 : k ≤ (self.starts.size : Int)) :
    __getitem__ self (-k) = __getitem__ self ((self.starts.size : Int) - k) := by
  unfold __getitem__
  have e1 : -k < 0 := by omega
  have e2 : ¬ ((self.starts.size : Int) - k < 0) := by omega
  have e3 : (self.starts.size : Int) + -k = (self.starts.size : Int) - k := by ring
  simp only [if_pos e1, if_neg e2, e3]

theorem getitem_negative_index_witness :
    __getitem__ (.flat [0, 2, 4] [2, 4, 5] [10, 20, 30, 40, 50]) (-1) =
      __getitem__ (.flat [0, 2, 4] [2, 4, 5] [10, 20, 30, 40, 50])
        (((JaggedArraySrc.flat [0, 2, 4] [2, 4, 5] [10, 20, 30, 40, 50]).starts.size : Int) - 1) :=
  getitem_negative_index (.flat [0, 2, 4] [2, 4, 5] [10, 20, 30, 40, 50]) 1 (by decide)
    (by decide)

/-! ## Evaluations at the edges of the input domain -/

/-- C12. Rendering and `__getitem__` do not reject the same rows. A row with
`start = stop = 7` over five content cells lies outside the content:
`__getitem__` fails with `out_of_range`, `__str__` returns a string. A row
`[0, 7)` over two content cells: `__getitem__` fails with `out_of_range`,
`__str__` has no bounds test and reads the content past its end. -/
theorem str_has_no_content_bounds_test :
    __getitem__ (.flat [7] [7] [10, 20, 30, 40, 50]) 0 = .error .out_of_range ∧
    __str__ (.flat [7] [7] [10, 20, 30, 40, 50]) = .ok "[[]]" ∧
    __getitem__ (.flat [0] [7] [10, 20]) 0 = .error .out_of_range ∧
    __str__ (.flat [0] [7] [10, 20]) = .error .undefined := by
  decide

/-- C14. On the two-dimensional buffer `[[0, -1]]` (one row of two elements:
`size = 2`, `strides = [16, 8]`, so `N = 2`) the scan of `set_starts` and
`set_stops` reads `ptr[0]` and then `ptr[2]`, a cell past the end of the
buffer; the negative element at `ptr[1]` is never examined and no
`invalid_argument` is thrown. -/
theorem set_starts_scan_two_dimensional :
    set_starts (.flat [] [] [])
      { ptr := [0, -1], itemsize := 8, size := 2, ndim := 2, strides := [16, 8],
        format := "q", shape := [1, 2] } = .error .undefined ∧
    set_stops (.flat [] [] [])
      { ptr := [0, -1], itemsize := 8, size := 2, ndim := 2, strides := [16, 8],
        format := "q", shape := [1, 2] } = .error .undefined :=
  ⟨rfl, rfl⟩

set_option maxRecDepth 100000 in
/-- C16. On a one-dimensional contiguous buffer of two 64-bit elements tagged
`>q`, `makeNative` computes `N = shape[0] / itemsize = 2 / 8 = 0`, swaps
`ptr[0]` twice and never touches `ptr[1]`: the buffer is left as it was, where
the byte reversals of `1` and `2` are `2^56` and `2^57`. On four 16-bit
elements tagged `>h`, `N = 4 / 2 = 2` and the third run writes `ptr[4]`, past
the end. -/
theorem makeNative_uses_shape_for_stride :
    (makeNative IntType.int64
      { ptr := [1, 2], itemsize := 8, size := 2, ndim := 1, strides := [8],
        format := ">q", shape := [2] }).map (fun b => b.ptr) = .ok [1, 2] ∧
    swap_int64 1 = 72057594037927936 ∧ swap_int64 2 = 144115188075855872 ∧
    (makeNative { bits := 16, signed := true }
      { ptr := [1, 2, 3, 4], itemsize := 2, size := 4, ndim := 1, strides := [2],
        format := ">h", shape := [4] }).map (fun b => b.ptr) = .error .undefined :=
  ⟨rfl, rfl, rfl, rfl⟩

/-- C17. With the length left out, a `parents` sequence without a
non-negative value gets one group: the scan for the maximum starts from `0`,
so `[-1]` gives `starts = stops = [0]`, of length `1`, where
`max(parents) + 1 = 0`. -/
theorem parents2startsstops_auto_length_all_negative :
    parents2startsstops (.ofList [-1]) (-1) = .ok ([0], [0]) ∧
    parents2startsstops (.ofList [-1, -1, -1]) (-1) = .ok ([0], [0]) := by
  decide

/-- C19. `__getitem__` lets the index `len(starts)` through (line 409 tests
`index > size`) and reads `starts[len(starts)]`, a cell past the end of
`starts`, instead of failing with `out_of_range`. -/
theorem getitem_reads_past_last_row :
    __getitem__ (.flat [0, 2, 4] [2, 4, 5] [10, 20, 30, 40, 50]) 3 = .error .undefined ∧
    __getitem__ (.flat [0, 2] [2, 4, 5] [10, 20, 30, 40, 50]) 2 = .error .undefined ∧
    __getitem__ (.flat [0, 2, 4] [2, 4, 5] [10, 20, 30, 40, 50]) 4 = .error .out_of_range := by
  decide

/-- C20. The closing write of `parents2startsstops` (line 322) is guarded by
`last != -1` only: with length `3`, a last parent `5` makes it write
`stops[5]`, and a last parent `-2` makes it write `stops[-2]`, outside the
three cells of `stops`; inside the scan the same values are skipped. -/
theorem parents2startsstops_closing_write_unguarded :
    parents2startsstops (.ofList [5]) 3 = .error .undefined ∧
    parents2startsstops (.ofList [-2]) 3 = .error .undefined ∧
    parents2startsstops (.ofList [5, 0]) 3 = .ok ([1, 0, 0], [2, 0, 0]) := by
  decide

/-! ## `startsstops2parents`: the positions written -/

theorem bind_err {α β : Type} {x : Except Err α} {e : Err} {f : α → Except Err β}
    (h : x = .error e) : (x >>= f) = .error e := by
  subst h
  rfl

theorem intercalate_go_eq_foldl (s : String) (l : List String) :
    ∀ acc : String, String.intercalate.go acc s l = l.foldl (fun r a => r ++ s ++ a) acc := by
  induction l with
  | nil => intro acc; rfl
  | cons a as ih =>
    intro acc
    show String.intercalate.go (acc ++ s ++ a) s as = _
    rw [ih]
    rfl

theorem foldl_sep_append {β : Type} (s : String) (g : β → String) (l : List β) :
    ∀ p acc : String, l.foldl (fun r a => r ++ s ++ g a) (p ++ acc) =
      p ++ l.foldl (fun r a => r ++ s ++ g a) acc := by
  induction l with
  | nil => intro p acc; rfl
  | cons a as ih =>
    intro p acc
    simp only [List.foldl_cons]
    rw [String.append_assoc, String.append_assoc, ih, String.append_assoc]

theorem intercalate_cons (s a : String) (as : List String) :
    s.intercalate (a :: as) = as.foldl (fun r x => r ++ s ++ x) a := by
  show String.intercalate.go a s as = _
  exact intercalate_go_eq_foldl s as a

theorem intercalate_concat (s x : String) (l : List String) :
    s.intercalate (l ++ [x]) = if l = [] then x else s.intercalate l ++ s ++ x := by
  cases l with
  | nil => rfl
  | cons a as =>
    rw [if_neg (by simp), List.cons_append, intercalate_cons, intercalate_cons,
      List.foldl_append]
    rfl

/-- The row loop of `__str__` once the first element is out. -/
theorem strRow_tail (array : List Int) (start : Int) (cnt : Nat) :
    ∀ (out : String) (j : Nat), start < (j : Int) → j + cnt ≤ array.length →
      strRow array start cnt out (j : Int) =
        .ok (((array.drop j).take cnt).foldl (fun r v => r ++ " " ++ toString v) out) := by
  induction cnt with
  | zero =>
    intro out j _ _
    rfl
  | succ n ih =>
    intro out j hj hlen
    have hjl : j < array.length := by omega
    unfold strRow
    rw [if_pos (by omega)]
    refine bind_ok (rd_nat (List.getElem?_eq_getElem hjl)) ?_
    have e : ((j : Int) + 1) = ((j + 1 : Nat) : Int) := by push_cast; rfl
    rw [e, ih _ (j + 1) (by omega) (by omega)]
    have hd : array.drop j = array[j] :: array.drop (j + 1) := by
      rw [List.drop_eq_getElem_cons hjl]
    rw [hd, List.take_succ_cons, List.foldl_cons]

/-- The row loop of `__str__`: the elements of the row, joined by a space. -/
theorem strRow_row (array : List Int) (s cnt : Nat) (out : String)
    (hlen : s + cnt ≤ array.length) :
    strRow array (s : Int) cnt out (s : Int) =
      .ok (out ++ " ".intercalate (((array.drop s).take cnt).map toString)) := by
  cases cnt with
  | zero =>
    show Except.ok out = _
    simp [String.intercalate]
  | succ n =>
    have hsl : s < array.length := by omega
    unfold strRow
    rw [if_neg (by simp)]
    refine bind_ok (rd_nat (List.getElem?_eq_getElem hsl)) ?_
    have e : ((s : Int) + 1) = ((s + 1 : Nat) : Int) := by push_cast; rfl
    rw [e, strRow_tail array (s : Int) n _ (s + 1) (by omega) (by omega)]
    have hd : array.drop s = array[s] :: array.drop (s + 1) := by
      rw [List.drop_eq_getElem_cons hsl]
    rw [hd, List.take_succ_cons, List.map_cons, intercalate_cons, List.foldl_map,
      ← foldl_sep_append " " (fun v : Int => toString v)]
theorem str_flat (starts stops content : List Int) (hle : starts.length ≤ stops.length)
    (hrows : ∀ i, i < starts.length → 0 ≤ starts.getD i 0 ∧
      starts.getD i 0 ≤ stops.getD i 0 ∧ stops.getD i 0 ≤ (content.length : Int)) :
    __str__ (.flat starts stops content) =
      .ok ("[" ++ " ".intercalate ((List.range starts.length).map (fun i =>
        "[" ++ " ".intercalate (((content.drop (starts.getD i 0).toNat).take
          (stops.getD i 0 - starts.getD i 0).toNat).map toString) ++ "]")) ++ "]") := by
  obtain ⟨row, hrow⟩ : ∃ row : Nat → String, row = fun i =>
      "[" ++ " ".intercalate (((content.drop (starts.getD i 0).toNat).take
        (stops.getD i 0 - starts.getD i 0).toNat).map toString) ++ "]" := ⟨_, rfl⟩
  rw [← hrow]
  obtain ⟨out, hout, hP⟩ := foldlM_range_inv
    (fun (out : String) (i : Nat) => do
      let out := if i ≠ 0 then out ++ " " else out
      let out := out ++ "["
      let end_ ← rd stops (i : Int)
      let start ← rd starts (i : Int)
      if start > end_ then (.error .out_of_range : Except Err String)
      else do
        let out ← strRow content start (end_ - start).toNat out start
        pure (out ++ "]"))
    (fun i out => out = " ".intercalate ((List.range i).map row))
    starts.length "" rfl
    (by
      intro i hi out hout
      obtain ⟨h0, h1, h2⟩ := hrows i hi
      have hrs : rd starts (i : Int) = .ok (starts.getD i 0) := by
        have := rd_getD starts i hi
        rwa [mul_one] at this
      have hrt : rd stops (i : Int) = .ok (stops.getD i 0) := by
        have := rd_getD stops i (by omega)
        rwa [mul_one] at this
      have hri : row i = "[" ++ " ".intercalate (((content.drop (starts.getD i 0).toNat).take
          (stops.getD i 0 - starts.getD i 0).toNat).map toString) ++ "]" := by
        rw [hrow]
      obtain ⟨a, ha⟩ : ∃ a, a = starts.getD i 0 := ⟨_, rfl⟩
      obtain ⟨b, hb⟩ : ∃ b, b = stops.getD i 0 := ⟨_, rfl⟩
      rw [← ha] at hrs h0 h1 hri
      rw [← hb] at hrt h1 h2 hri
      refine ⟨_, ?_, rfl⟩
      beta_reduce
      refine bind_ok hrt ?_
      refine bind_ok hrs ?_
      rw [if_neg (by omega)]
      have ea : a = ((a.toNat : Nat) : Int) := (Int.toNat_of_nonneg h0).symm
      have hs := strRow_row content a.toNat (b - a).toNat
        ((if i ≠ 0 then out ++ " " else out) ++ "[") (by omega)
      rw [← ea] at hs
      refine bind_ok hs ?_
      rw [List.range_succ, List.map_append, List.map_singleton, intercalate_concat, hri]
      by_cases hi0 : i = 0
      · subst hi0
        subst hout
        have hnil : List.map row (List.range 0) = [] := rfl
        rw [if_pos hnil, hnil, if_neg (by simp)]
        have he : " ".intercalate ([] : List String) = "" := rfl
        rw [he, String.empty_append]
        simp only [String.append_assoc, pure, Except.pure]
      · have hne : ¬ (List.map row (List.range i) = []) := by
          simp [hi0]
        rw [if_neg hne, if_pos hi0, ← hout]
        simp only [String.append_assoc, pure, Except.pure])
  subst hP
  unfold __str__
  simp only [JaggedArraySrc.flat, JaggedArraySrc.starts, JaggedArraySrc.stops,
    JaggedArraySrc.content_type, JaggedArraySrc.content_array]
  rw [if_pos trivial, if_pos (show (BufferInfo.ofList content).ndim = 1 from rfl)]
  refine bind_ok (N_ofList _) ?_
  rw [if_pos rfl]
  simp only [BufferInfo.ofList]
  rw [if_neg (by omega)]
  refine bind_ok hout ?_
  rfl
theorem map_range_eq_zipWith {β : Type} (f : Int → Int → β) :
    ∀ (starts stops : List Int), starts.length ≤ stops.length →
      (List.range starts.length).map (fun i => f (starts.getD i 0) (stops.getD i 0)) =
        List.zipWith f starts stops := by
  intro starts
  induction starts with
  | nil => intro stops _; rfl
  | cons a as ih =>
    intro stops hle
    cases stops with
    | nil => simp at hle
    | cons b bs =>
      have hle2 : as.length ≤ bs.length := by simpa using hle
      rw [List.length_cons, List.range_succ_eq_map, List.map_cons, List.map_map,
        List.zipWith_cons_cons, ← ih bs hle2]
      rfl

/-- With contiguous `starts` and `stops`: for a jagged array over flat,
one-dimensional, unit-stride content with `len(starts) ≤ len(stops)` and `0 ≤ starts[i] ≤ stops[i] ≤ len(content)`
on every row, `__str__` returns `"["`, the rows joined by a single space, and
`"]"`, where a row is `"["`, the decimal renderings of
`content[starts[i] .. stops[i])` joined by a single space, and `"]"`; the
example renders `"[[10 20] [30 40] [50]]"`, an empty row `"[]"` and an array
without rows `"[]"`. -/
theorem str_renders_rows (starts stops content : List Int)
    (hle : starts.length ≤ stops.length)
    (hrows : ∀ (i : Nat) (h : i < starts.length),
      0 ≤ starts[i] ∧ starts[i] ≤ stops[i] ∧ stops[i] ≤ (content.length : Int)) :
    __str__ (.flat starts stops content) =
      .ok ("[" ++ " ".intercalate (List.zipWith (fun (s e : Int) =>
        "[" ++ " ".intercalate (((content.drop s.toNat).take (e - s).toNat).map toString) ++ "]")
        starts stops) ++ "]") ∧
    __str__ (.flat [0, 2, 4] [2, 4, 5] [10, 20, 30, 40, 50]) = .ok "[[10 20] [30 40] [50]]" ∧
    __str__ (.flat [1, 1] [1, 2] [10, 20]) = .ok "[[] [20]]" ∧
    __str__ (.flat [] [] [10, 20]) = .ok "[]" := by
  refine ⟨?_, by decide, by decide, by decide⟩
  rw [str_flat starts stops content hle (by
    intro i hi
    rw [List.getD_eq_getElem _ _ hi, List.getD_eq_getElem _ _ (show i < stops.length by omega)]
    exact hrows i hi)]
  rw [← map_range_eq_zipWith (fun (s e : Int) =>
    "[" ++ " ".intercalate (((content.drop s.toNat).take (e - s).toNat).map toString) ++ "]")
    starts stops hle]

theorem str_renders_rows_witness :
    __str__ (.flat [0, 1, 1] [1, 1, 3, 9] [7, -8, 9]) =
      .ok ("[" ++ " ".intercalate (List.zipWith (fun (s e : Int) =>
        "[" ++ " ".intercalate ((([7, -8, 9] : List Int).drop s.toNat).take
          (e - s).toNat |>.map toString) ++ "]")
        [0, 1, 1] [1, 1, 3, 9]) ++ "]") ∧
    __str__ (.flat [0, 2, 4] [2, 4, 5] [10, 20, 30, 40, 50]) = .ok "[[10 20] [30 40] [50]]" ∧
    __str__ (.flat [1, 1] [1, 2] [10, 20]) = .ok "[[] [20]]" ∧
    __str__ (.flat [] [] [10, 20]) = .ok "[]" :=
  str_renders_rows [0, 1, 1] [1, 1, 3, 9] [7, -8, 9] (by decide)
    (by
      intro i h
      have h3 : i < 3 := h
      interval_cases i <;> simp)

/-! ## `__iter__` and `__next__` -/

theorem after_nexts_iter (s t c : BufferInfo Int) (j : Option JaggedArraySrc) (ty : Char)
    (idx : Int) (k : Nat) :
    after_nexts k (__iter__ (.mk s t c j ty idx)) =
      .mk s t c j ty ((min k s.size : Nat) : Int) := by
  induction k with
  | zero =>
    show __iter__ _ = _
    simp [__iter__, JaggedArraySrc.starts, JaggedArraySrc.stops, JaggedArraySrc.content_array,
      JaggedArraySrc.content_jagged, JaggedArraySrc.content_type]
  | succ k ih =>
    show (__next__ (after_nexts k (__iter__ _))).2 = _
    rw [ih]
    unfold __next__
    simp only [JaggedArraySrc.iter_index, JaggedArraySrc.starts, JaggedArraySrc.stops,
      JaggedArraySrc.content_array, JaggedArraySrc.content_jagged, JaggedArraySrc.content_type]
    by_cases h : k < s.size
    · rw [if_neg (by omega)]
      have e : ((min k s.size : Nat) : Int) + 1 = ((min (k + 1) s.size : Nat) : Int) := by omega
      rw [e]
    · rw [if_pos (by omega)]
      have e : min k s.size = min (k + 1) s.size := by omega
      rw [e]

/-- C13. Iteration visits the rows in index order and then stops: after
`__iter__`, the call of `__next__` that follows `k` earlier calls returns what
`__getitem__(k)` returns, for `k < len(starts)` (the same sequence, or the same
failure); from then on every call throws `stop_iteration` and leaves the array
as it is; and `__iter__` puts the cursor back at row `0`. -/
theorem iteration_visits_rows (self : JaggedArraySrc) :
    (∀ k : Nat, k < self.starts.size →
      (__next__ (after_nexts k (__iter__ self))).1 = __getitem__ self (k : Int)) ∧
    (∀ k : Nat, self.starts.size ≤ k →
      __next__ (after_nexts k (__iter__ self)) =
        (.error .stop_iteration, after_nexts k (__iter__ self))) ∧
    (∀ k : Nat, __iter__ (after_nexts k (__iter__ self)) = __iter__ self) ∧
    (__iter__ self).iter_index = 0 := by
  cases self with
  | mk s t c j ty idx =>
    simp only [JaggedArraySrc.starts]
    refine ⟨?_, ?_, ?_, rfl⟩
    · intro k hk
      rw [after_nexts_iter]
      unfold __next__
      simp only [JaggedArraySrc.iter_index, JaggedArraySrc.starts, JaggedArraySrc.stops,
        JaggedArraySrc.content_array, JaggedArraySrc.content_jagged,
        JaggedArraySrc.content_type]
      rw [if_neg (by omega)]
      have e : min k s.size = k := by omega
      rw [e]
      rfl
    · intro k hk
      rw [after_nexts_iter]
      unfold __next__
      simp only [JaggedArraySrc.iter_index, JaggedArraySrc.starts]
      rw [if_pos (by omega)]
    · intro k
      rw [after_nexts_iter]
      rfl

/-! ## Content access -/

theorem bind_eq_ok {α β : Type} {x : Except Err α} {f : α → Except Err β} {b : β}
    (h : (x >>= f) = .ok b) : ∃ a, x = .ok a ∧ f a = .ok b := by
  cases x with
  | error e => cases h
  | ok a => exact ⟨a, rfl, h⟩

theorem set_starts_ok (self ja : JaggedArraySrc) (starts_ : BufferInfo Int)
    (h : set_starts self starts_ = .ok ja) :
    ∃ b, ja = .mk b self.stops self.content_array self.content_jagged self.content_type
      self.iter_index := by
  unfold set_starts at h
  obtain ⟨b, -, h⟩ := bind_eq_ok h
  by_cases hd : b.ndim < 1
  · rw [if_pos hd] at h
    cases h
  · rw [if_neg hd] at h
    obtain ⟨N, -, h⟩ := bind_eq_ok h
    obtain ⟨u, -, h⟩ := bind_eq_ok h
    exact ⟨b, (Except.ok.inj h).symm⟩

theorem set_stops_ok (self ja : JaggedArraySrc) (stops_ : BufferInfo Int)
    (h : set_stops self stops_ = .ok ja) :
    ∃ b, ja = .mk self.starts b self.content_array self.content_jagged self.content_type
      self.iter_index := by
  unfold set_stops at h
  obtain ⟨b, -, h⟩ := bind_eq_ok h
  by_cases hd : b.ndim < 1
  · rw [if_pos hd] at h
    cases h
  · rw [if_neg hd] at h
    obtain ⟨N, -, h⟩ := bind_eq_ok h
    obtain ⟨u, -, h⟩ := bind_eq_ok h
    exact ⟨b, (Except.ok.inj h).symm⟩

theorem after_content_type (self : JaggedArraySrc) (call : Call) :
    (after self call).content_type = self.content_type := by
  cases call with
  | set_starts b =>
    show (match set_starts self b with | .ok s => s | .error _ => self).content_type = _
    cases h : set_starts self b with
    | error e => rfl
    | ok ja =>
      obtain ⟨b2, rfl⟩ := set_starts_ok self ja b h
      rfl
  | set_stops b =>
    show (match set_stops self b with | .ok s => s | .error _ => self).content_type = _
    cases h : set_stops self b with
    | error e => rfl
    | ok ja =>
      obtain ⟨b2, rfl⟩ := set_stops_ok self ja b h
      rfl
  | set_content_array c =>
    show (match set_content_array self c with | .ok s => s | .error _ => self).content_type = _
    unfold set_content_array
    by_cases h : self.content_type ≠ 'a'
    · rw [if_pos h]
    · rw [if_neg h]
      rfl
  | set_content_jagged j =>
    show (match set_content_jagged self j with | .ok s => s | .error _ => self).content_type = _
    unfold set_content_jagged
    by_cases h : self.content_type ≠ 'j'
    · rw [if_pos h]
    · rw [if_neg h]
      rfl
  | iter => cases self; rfl
  | next =>
    show (__next__ self).2.content_type = _
    unfold __next__
    by_cases h : self.iter_index ≥ (self.starts.size : Int)
    · rw [if_pos h]
    · rw [if_neg h]
      rfl
  | get_content_type => rfl
  | get_content_array => rfl
  | get_content_jagged => rfl
  | get_starts => rfl
  | get_stops => rfl
  | getitem i => rfl
  | str => rfl
  | repr => rfl
  | len => rfl

theorem foldl_after_content_type (calls : List Call) :
    ∀ self : JaggedArraySrc, (calls.foldl after self).content_type = self.content_type := by
  induction calls with
  | nil => intro self; rfl
  | cons c cs ih =>
    intro self
    rw [List.foldl_cons, ih, after_content_type]

theorem init_array_content_type (s t c : BufferInfo Int) (ja : JaggedArraySrc)
    (h : JaggedArraySrc.init_array s t c = .ok ja) : ja.content_type = 'a' := by
  unfold JaggedArraySrc.init_array at h
  obtain ⟨s1, -, h⟩ := bind_eq_ok h
  obtain ⟨s2, -, h⟩ := bind_eq_ok h
  rw [← Except.ok.inj h]
  rfl

theorem init_jagged_content_type (s t : BufferInfo Int) (j : Option JaggedArraySrc)
    (ja : JaggedArraySrc) (h : JaggedArraySrc.init_jagged s t j = .ok ja) :
    ja.content_type = 'j' := by
  unfold JaggedArraySrc.init_jagged at h
  obtain ⟨s1, -, h⟩ := bind_eq_ok h
  obtain ⟨s2, -, h⟩ := bind_eq_ok h
  rw [← Except.ok.inj h]
  rfl

/-- C15. Content access is variant-gated and the tag is fixed: the two
constructors leave `content_type` at `'a'` and at `'j'`;
`get_content_array` and `set_content_array` succeed when `content_type = 'a'`
and throw `invalid_argument` otherwise, `get_content_jagged` and
`set_content_jagged` likewise for `'j'`, and a call that throws leaves the
array as it was; no sequence of calls changes `content_type`, so that it is
never `'t'` on a constructed array. -/
theorem content_access_is_variant_gated :
    (∀ (s t c : BufferInfo Int) (ja : JaggedArraySrc),
      JaggedArraySrc.init_array s t c = .ok ja → ja.content_type = 'a') ∧
    (∀ (s t : BufferInfo Int) (j : Option JaggedArraySrc) (ja : JaggedArraySrc),
      JaggedArraySrc.init_jagged s t j = .ok ja → ja.content_type = 'j') ∧
    JaggedArraySrc.init_array (.ofList [0, 2]) (.ofList [2, 3]) (.ofList [7, 8, 9]) =
      .ok (.flat [0, 2] [2, 3] [7, 8, 9]) ∧
    (∀ self : JaggedArraySrc,
      (self.content_type = 'a' → get_content_array self = .ok self.content_array) ∧
      (self.content_type ≠ 'a' → get_content_array self =
        .error (.invalid_argument "JaggedArray must be of 'array' content type")) ∧
      (self.content_type = 'j' → get_content_jagged self = .ok self.content_jagged) ∧
      (self.content_type ≠ 'j' → get_content_jagged self =
        .error (.invalid_argument "JaggedArray must be of 'jagged' content type"))) ∧
    (∀ (self : JaggedArraySrc) (c : BufferInfo Int),
      (self.content_type = 'a' → set_content_array self c =
        .ok (.mk self.starts self.stops c self.content_jagged self.content_type
          self.iter_index)) ∧
      (self.content_type ≠ 'a' →
        set_content_array self c =
          .error (.invalid_argument "JaggedArray must be of 'array' content type") ∧
        after self (.set_content_array c) = self)) ∧
    (∀ (self : JaggedArraySrc) (j : Option JaggedArraySrc),
      (self.content_type = 'j' → set_content_jagged self j =
        .ok (.mk self.starts self.stops self.content_array j self.content_type
          self.iter_index)) ∧
      (self.content_type ≠ 'j' →
        set_content_jagged self j =
          .error (.invalid_argument "JaggedArray must be of 'jagged' content type") ∧
        after self (.set_content_jagged j) = self)) ∧
    (∀ (self : JaggedArraySrc) (calls : List Call),
      (calls.foldl after self).content_type = self.content_type) ∧
    (∀ (s t c : BufferInfo Int) (ja : JaggedArraySrc) (calls : List Call),
      JaggedArraySrc.init_array s t c = .ok ja →
        (calls.foldl after ja).content_type = 'a' ∧
        (calls.foldl after ja).content_type ≠ 't') ∧
    (∀ (s t : BufferInfo Int) (j : Option JaggedArraySrc) (ja : JaggedArraySrc)
      (calls : List Call),
      JaggedArraySrc.init_jagged s t j = .ok ja →
        (calls.foldl after ja).content_type = 'j' ∧
        (calls.foldl after ja).content_type ≠ 't') := by
  refine ⟨init_array_content_type, init_jagged_content_type, rfl, ?_, ?_, ?_,
    fun self calls => foldl_after_content_type calls self, ?_, ?_⟩
  · intro self
    refine ⟨?_, ?_, ?_, ?_⟩
    · intro h
      unfold get_content_array
      rw [if_neg (not_not.mpr h)]
    · intro h
      unfold get_content_array
      rw [if_pos h]
    · intro h
      unfold get_content_jagged
      rw [if_neg (not_not.mpr h)]
    · intro h
      unfold get_content_jagged
      rw [if_pos h]
  · intro self c
    refine ⟨?_, ?_⟩
    · intro h
      unfold set_content_array
      rw [if_neg (not_not.mpr h)]
    · intro h
      have e : set_content_array self c =
          .error (.invalid_argument "JaggedArray must be of 'array' content type") := by
        unfold set_content_array
        rw [if_pos h]
      refine ⟨e, ?_⟩
      show (match set_content_array self c with | .ok s => s | .error _ => self) = self
      rw [e]
  · intro self j
    refine ⟨?_, ?_⟩
    · intro h
      unfold set_content_jagged
      rw [if_neg (not_not.mpr h)]
    · intro h
      have e : set_content_jagged self j =
          .error (.invalid_argument "JaggedArray must be of 'jagged' content type") := by
        unfold set_content_jagged
        rw [if_pos h]
      refine ⟨e, ?_⟩
      show (match set_content_jagged self j with | .ok s => s | .error _ => self) = self
      rw [e]
  · intro s t c ja calls h
    have e : (calls.foldl after ja).content_type = 'a' := by
      rw [foldl_after_content_type, init_array_content_type s t c ja h]
    refine ⟨e, ?_⟩
    rw [e]
    decide
  · intro s t j ja calls h
    have e : (calls.foldl after ja).content_type = 'j' := by
      rw [foldl_after_content_type, init_jagged_content_type s t j ja h]
    refine ⟨e, ?_⟩
    rw [e]
    decide

/-! ## `makeNative`, `set_starts` and `set_stops` on contiguous buffers -/

/-- A buffer whose format does not start with a byte-order marker is left as
it is by `makeNative`. -/
theorem makeNative_no_marker (T : IntType) (input : BufferInfo Int) (c : Char)
    (h : string_at input.format 0 = .ok c) (h1 : c ≠ '>') (h2 : c ≠ '<') :
    makeNative T input = .ok input := by
  unfold makeNative
  refine bind_ok h ?_
  rw [if_pos ⟨h1, h2⟩]
  rfl

theorem makeNative_native (T : IntType) (xs : List Int) :
    makeNative T (.ofList xs) = .ok (.ofList xs) := by
  unfold makeNative
  refine bind_ok (show string_at (BufferInfo.ofList xs).format 0 = .ok 'q' from rfl) ?_
  rw [if_pos (by decide)]
  rfl

theorem check_non_negative_from (what : String) (p : List Int) :
    ∀ (len s : Nat), s + len ≤ p.length →
      ((∀ j, s ≤ j → j < s + len → 0 ≤ p.getD j 0) →
        (List.range' s len).foldlM
          (fun (_ : Unit) (i : Nat) => do
            let v ← rd p (i * (1 : Int))
            if v < 0 then
              .error (.invalid_argument
                (what ++ " must have all non-negative values: see index [" ++
                  toString ((i : Int) * 1) ++ "]"))
            else pure ())
          () = .ok ()) ∧
      (∀ i, s ≤ i → i < s + len → p.getD i 0 < 0 → (∀ j, s ≤ j → j < i → 0 ≤ p.getD j 0) →
        (List.range' s len).foldlM
          (fun (_ : Unit) (i : Nat) => do
            let v ← rd p (i * (1 : Int))
            if v < 0 then
              .error (.invalid_argument
                (what ++ " must have all non-negative values: see index [" ++
                  toString ((i : Int) * 1) ++ "]"))
            else pure ())
          () = .error (.invalid_argument
            (what ++ " must have all non-negative values: see index [" ++
              toString (i : Int) ++ "]"))) := by
  intro len
  induction len with
  | zero =>
    intro s _
    exact ⟨fun _ => rfl, fun i h1 h2 => absurd h2 (by omega)⟩
  | succ n ih =>
    intro s hs
    obtain ⟨ih1, ih2⟩ := ih (s + 1) (by omega)
    refine ⟨?_, ?_⟩
    · intro h
      rw [List.range'_succ, List.foldlM_cons]
      refine bind_ok (v := ()) ?_ (ih1 (fun j h1 h2 => h j (by omega) (by omega)))
      refine bind_ok (rd_getD p s (by omega)) ?_
      rw [if_neg (not_lt.mpr (h s (le_refl s) (by omega)))]
      rfl
    · intro i h1 h2 hneg hprev
      rw [List.range'_succ, List.foldlM_cons]
      by_cases hi : i = s
      · subst hi
        refine bind_err ?_
        refine bind_ok (rd_getD p i (by omega)) ?_
        rw [if_pos hneg, mul_one]
      · refine bind_ok (v := ()) ?_
          (ih2 i (by omega) (by omega) hneg (fun j h3 h4 => hprev j (by omega) h4))
        refine bind_ok (rd_getD p s (by omega)) ?_
        rw [if_neg (not_lt.mpr (hprev s (le_refl s) (by omega)))]
        rfl
theorem check_non_negative_ofList (what : String) (xs : List Int) :
    ((∀ j, j < xs.length → 0 ≤ xs.getD j 0) →
      check_non_negative what 1 xs.length xs = .ok ()) ∧
    (∀ i, i < xs.length → xs.getD i 0 < 0 → (∀ j, j < i → 0 ≤ xs.getD j 0) →
      check_non_negative what 1 xs.length xs =
        .error (.invalid_argument
          (what ++ " must have all non-negative values: see index [" ++
            toString (i : Int) ++ "]"))) := by
  obtain ⟨h1, h2⟩ := check_non_negative_from what xs xs.length 0 (by omega)
  unfold check_non_negative
  rw [List.range_eq_range']
  refine ⟨fun h => h1 (fun j _ hj => h j (by omega)), fun i hi hneg hprev => ?_⟩
  exact h2 i (Nat.zero_le i) (by omega) hneg (fun j _ hj => hprev j hj)

/-- On a contiguous one-dimensional buffer `set_starts` and `set_stops` store
the buffer when no element is negative, and otherwise throw
`invalid_argument` with the position of the first negative element, assigning
nothing. -/
theorem set_starts_contiguous (self : JaggedArraySrc) (xs : List Int) :
    ((∀ j, j < xs.length → 0 ≤ xs.getD j 0) →
      set_starts self (.ofList xs) =
        .ok (.mk (.ofList xs) self.stops self.content_array self.content_jagged
          self.content_type self.iter_index) ∧
      set_stops self (.ofList xs) =
        .ok (.mk self.starts (.ofList xs) self.content_array self.content_jagged
          self.content_type self.iter_index)) ∧
    (∀ i, i < xs.length → xs.getD i 0 < 0 → (∀ j, j < i → 0 ≤ xs.getD j 0) →
      set_starts self (.ofList xs) =
        .error (.invalid_argument
          ("starts must have all non-negative values: see index [" ++
            toString (i : Int) ++ "]")) ∧
      set_stops self (.ofList xs) =
        .error (.invalid_argument
          ("stops must have all non-negative values: see index [" ++
            toString (i : Int) ++ "]"))) := by
  have hnd : ¬ (BufferInfo.ofList xs).ndim < 1 := by
    show ¬ ((1 : Nat) < 1)
    omega
  refine ⟨fun h => ⟨?_, ?_⟩, fun i hi hneg hprev => ⟨?_, ?_⟩⟩
  · unfold set_starts
    refine bind_ok (makeNative_native _ xs) ?_
    rw [if_neg hnd]
    refine bind_ok (N_ofList xs) ?_
    exact bind_ok ((check_non_negative_ofList "starts" xs).1 h) rfl
  · unfold set_stops
    refine bind_ok (makeNative_native _ xs) ?_
    rw [if_neg hnd]
    refine bind_ok (N_ofList xs) ?_
    exact bind_ok ((check_non_negative_ofList "stops" xs).1 h) rfl
  · unfold set_starts
    refine bind_ok (makeNative_native _ xs) ?_
    rw [if_neg hnd]
    refine bind_ok (N_ofList xs) ?_
    exact bind_err ((check_non_negative_ofList "starts" xs).2 i hi hneg hprev)
  · unfold set_stops
    refine bind_ok (makeNative_native _ xs) ?_
    rw [if_neg hnd]
    refine bind_ok (N_ofList xs) ?_
    exact bind_err ((check_non_negative_ofList "stops" xs).2 i hi hneg hprev)

/-! ## `offsets2parents` after `uniques2offsetsparents` -/

theorem boundaries_split (d : Nat → Bool) (x : Nat) :
    ∀ m, x ≤ m →
      ∃ rest, boundaries d m = boundaries d x ++ rest ∧ ∀ b ∈ rest, (x : Int) < b := by
  intro m h
  induction m, h using Nat.le_induction with
  | base => exact ⟨[], by simp, by simp⟩
  | succ m hm ih =>
    obtain ⟨rest, h1, h2⟩ := ih
    rw [boundaries_succ, h1, List.append_assoc]
    refine ⟨_, rfl, ?_⟩
    intro b hb
    rw [List.mem_append] at hb
    rcases hb with hb | hb
    · exact h2 b hb
    · by_cases hd : d m = true
      · rw [if_pos hd, List.mem_singleton] at hb
        omega
      · rw [if_neg hd] at hb
        cases hb

theorem boundaries_bounds (d : Nat → Bool) (x : Nat) :
    ∀ b ∈ boundaries d x, 1 ≤ b ∧ b ≤ (x : Int) := by
  intro b hb
  obtain ⟨i, h1, _, rfl⟩ := (mem_boundaries d x b).mp hb
  omega

theorem boundaries_pairwise (d : Nat → Bool) (m : Nat) :
    (boundaries d m).Pairwise (· < ·) := by
  unfold boundaries
  refine List.Pairwise.map _ ?_ ((List.pairwise_lt_range m).filter _)
  intro a b h
  omega

/-- The offsets of `uniques2offsetsparents` on a non-empty sequence increase
strictly. -/
theorem offsets_strict (d : Nat → Bool) (n : Nat) (hn : 0 < n) :
    (0 :: (boundaries d (n - 1) ++ [(n : Int)])).Pairwise (· < ·) := by
  rw [List.pairwise_cons, List.pairwise_append]
  refine ⟨?_, boundaries_pairwise d _, List.pairwise_singleton _ _, ?_⟩
  · intro b hb
    rw [List.mem_append, List.mem_singleton] at hb
    rcases hb with hb | hb
    · have := boundaries_bounds d _ b hb
      omega
    · omega
  · intro a ha b hb
    rw [List.mem_singleton] at hb
    have := boundaries_bounds d _ a ha
    omega
/-- The group of position `x` in the offsets of `uniques2offsetsparents` is
the number of changes before `x`. -/
theorem offsets_group (d : Nat → Bool) (n x : Nat) (hx : x < n) :
    (boundaries d x).length + 1 < (0 :: (boundaries d (n - 1) ++ [(n : Int)])).length ∧
    (0 :: (boundaries d (n - 1) ++ [(n : Int)])).getD (boundaries d x).length 0 ≤ (x : Int) ∧
    (x : Int) < (0 :: (boundaries d (n - 1) ++ [(n : Int)])).getD
      ((boundaries d x).length + 1) 0 := by
  obtain ⟨rest, h1, h2⟩ := boundaries_split d x (n - 1) (by omega)
  have hb := boundaries_bounds d x
  rw [h1]
  generalize boundaries d x = Bx at hb
  refine ⟨by simp, ?_, ?_⟩
  · rcases Nat.eq_zero_or_pos Bx.length with h0 | h0
    · rw [h0]
      show (0 : Int) ≤ _
      omega
    · obtain ⟨r, hr⟩ : ∃ r, Bx.length = r + 1 := ⟨Bx.length - 1, by omega⟩
      rw [hr, List.getD_cons_succ, List.append_assoc, List.getD_append _ _ _ _ (by omega),
        List.getD_eq_getElem _ _ (by omega)]
      exact (hb _ (List.getElem_mem _)).2
  · rw [List.getD_cons_succ, List.append_assoc, List.getD_append_right _ _ _ _ (le_refl _),
      Nat.sub_self]
    cases rest with
    | nil =>
      show (x : Int) < (n : Int)
      omega
    | cons b bs => exact h2 b (List.mem_cons_self _ _)

/-- C22. For every sequence `uniques`, `uniques2offsetsparents` returns
`(offsets, parents)` such that `offsets` is non-decreasing, and strictly
increasing when `uniques` is non-empty, starts at `0` and ends at
`len(uniques)`, and `offsets2parents(offsets)` returns `parents`. -/
theorem uniques2offsetsparents_consistent (uniques : List Int) :
    (∃ offsets parents : List Int,
      uniques2offsetsparents (.ofList uniques) = .ok (offsets, parents) ∧
      offsets.Chain' (· ≤ ·) ∧
      (uniques ≠ [] → offsets.Chain' (· < ·)) ∧
      offsets.head? = some 0 ∧
      offsets.getLast? = some (uniques.length : Int) ∧
      offsets2parents (.ofList offsets) = .ok parents) ∧
    uniques2offsetsparents (.ofList [5, 5, 7, 7, 7, 2]) =
      .ok ([0, 2, 5, 6], [0, 0, 1, 1, 1, 2]) ∧
    offsets2parents (.ofList [0, 2, 5, 6]) = .ok [0, 0, 1, 1, 1, 2] ∧
    uniques2offsetsparents (.ofList []) = .ok ([0, 0], []) ∧
    offsets2parents (.ofList [0, 0]) = .ok [] := by
  refine ⟨?_, by decide, by decide, by decide, by decide⟩
  refine ⟨_, _, uniques2offsetsparents_closed uniques, ?_, ?_, rfl, ?_, ?_⟩
  · rcases Nat.eq_zero_or_pos uniques.length with h0 | h0
    · rw [h0]
      simp [boundaries]
    · exact ((offsets_strict (differs uniques) _ h0).imp (fun h => le_of_lt h)).chain'
  · intro hne
    exact (offsets_strict (differs uniques) _ (List.length_pos.mpr hne)).chain'
  · rw [List.getLast?_cons, List.getLast?_append]
    rfl
  · have hmem : ∀ v ∈ (0 :: (boundaries (differs uniques) (uniques.length - 1) ++
        [(uniques.length : Int)])), 0 ≤ v := by
      intro v hv
      rw [List.mem_cons, List.mem_append, List.mem_singleton] at hv
      rcases hv with hv | hv | hv
      · omega
      · have := boundaries_bounds _ _ v hv
        omega
      · omega
    have hchain : (0 :: (boundaries (differs uniques) (uniques.length - 1) ++
        [(uniques.length : Int)])).Chain' (· ≤ ·) := by
      rcases Nat.eq_zero_or_pos uniques.length with h0 | h0
      · rw [h0]
        simp [boundaries]
      · exact ((offsets_strict (differs uniques) _ h0).imp (fun h => le_of_lt h)).chain'
    obtain ⟨ps, hps, hlen, _, hgrp⟩ := offsets2parents_int _ (List.cons_ne_nil _ _)
      (getD_nonneg_of_forall _ hmem) (getD_mono_of_chain _ hchain)
    rw [hps]
    congr 1
    have hlast : (0 :: (boundaries (differs uniques) (uniques.length - 1) ++
        [(uniques.length : Int)])).getD
        ((0 :: (boundaries (differs uniques) (uniques.length - 1) ++
          [(uniques.length : Int)])).length - 1) 0 = (uniques.length : Int) := by
      simp
    rw [hlast] at hlen
    apply List.ext_getElem?
    intro x
    rcases Nat.lt_or_ge x uniques.length with hx | hx
    · obtain ⟨g1, g2, g3⟩ := offsets_group (differs uniques) uniques.length x hx
      rw [hgrp _ x g1 g2 g3, List.getElem?_map, List.getElem?_range hx, length_boundaries]
      rfl
    · rw [List.getElem?_eq_none (by omega), List.getElem?_eq_none (by simp; omega)]

/-! ## The swap functions -/

theorem shr_int (x : Int) (s : Nat) : x >>> ((s : Nat) : Int) = x / 2 ^ s := by
  have h : x >>> ((s : Nat) : Int) = x >>> s := by
    cases x with
    | ofNat m => exact Int.shiftRight_coe_nat m s
    | negSucc m => exact Int.shiftRight_negSucc m s
  rw [h, Int.shiftRight_eq_div_pow]
  norm_cast

theorem shl_int (x : Int) (s : Nat) : x <<< ((s : Nat) : Int) = x * 2 ^ s := by
  rw [Int.shiftLeft_eq_mul_pow]
  norm_cast

theorem pattern64_lt (x : Int) : pattern64 x < 2 ^ 64 := by
  unfold pattern64
  omega

theorem bit_ge (x : Int) (i : Nat) (h : 64 ≤ i) : bit x i = false :=
  Nat.testBit_lt_two_pow
    (lt_of_lt_of_le (pattern64_lt x) (Nat.pow_le_pow_right (by decide) h))

theorem pattern64_natCast (n : Nat) (h : n < 2 ^ 64) : pattern64 (n : Int) = n := by
  unfold pattern64
  omega

theorem bit_bitand (a b : Int) (i : Nat) : bit (bitand a b) i = (bit a i && bit b i) := by
  unfold bit bitand
  rw [pattern64_natCast _ (lt_of_le_of_lt Nat.and_le_left (pattern64_lt a)), Nat.testBit_and]

theorem bit_bitor (a b : Int) (i : Nat) : bit (bitor a b) i = (bit a i || bit b i) := by
  unfold bit bitor
  rw [pattern64_natCast _ (Nat.or_lt_two_pow (pattern64_lt a) (pattern64_lt b)),
    Nat.testBit_or]

/-- The bits of `x << s`. -/
theorem bit_shl (x sI : Int) (s : Nat) (hs : sI = (s : Int))
    (hs3 : s = 8 ∨ s = 16 ∨ s = 32) (i : Nat) :
    bit (x <<< sI) i = (decide (i < 64) && (decide (s ≤ i) && bit x (i - s))) := by
  subst hs
  rw [shl_int]
  have h : pattern64 (x * 2 ^ s) = (2 ^ s * pattern64 x) % 2 ^ 64 := by
    unfold pattern64
    rcases hs3 with rfl | rfl | rfl <;> omega
  unfold bit
  rw [h, Nat.testBit_mod_two_pow, Nat.testBit_mul_pow_two]

/-- The bits of the arithmetic shift `x >> s` below position `64 - s`. -/
theorem bit_shr (x sI : Int) (s : Nat) (hs : sI = (s : Int))
    (hs3 : s = 8 ∨ s = 16 ∨ s = 32) (i : Nat) (hi : i + s < 64) :
    bit (x >>> sI) i = bit x (i + s) := by
  subst hs
  rw [shr_int]
  have h : pattern64 (x / 2 ^ s) % 2 ^ (64 - s) = pattern64 x >>> s := by
    rw [Nat.shiftRight_eq_div_pow]
    unfold pattern64
    rcases hs3 with rfl | rfl | rfl <;> omega
  unfold bit
  rw [Nat.add_comm i s, ← Nat.testBit_shiftRight, ← h, Nat.testBit_mod_two_pow,
    decide_eq_true (by omega : i < 64 - s), Bool.true_and]

/-- The logical shift `x >> s` of a value of `2 * s` bits has `s` bits. -/
theorem bit_shr_high (x sI : Int) (s : Nat) (hs : sI = (s : Int))
    (hs3 : s = 8 ∨ s = 16 ∨ s = 32) (h0 : 0 ≤ x) (h1 : x < 2 ^ (2 * s)) (i : Nat)
    (hi : s ≤ i) : bit (x >>> sI) i = false := by
  subst hs
  rw [shr_int]
  have h : pattern64 (x / 2 ^ s) < 2 ^ s := by
    unfold pattern64
    rcases hs3 with rfl | rfl | rfl <;> omega
  exact Nat.testBit_lt_two_pow (lt_of_lt_of_le h (Nat.pow_le_pow_right (by decide) hi))

theorem bit_toSigned (w : Nat) (hw : w = 16 ∨ w = 32 ∨ w = 64) (y : Int) (i : Nat)
    (hi : i < w) : bit (toSigned w y) i = bit y i := by
  have h : pattern64 (toSigned w y) % 2 ^ w = pattern64 y % 2 ^ w := by
    unfold pattern64 toSigned
    rcases hw with rfl | rfl | rfl <;> split_ifs <;> omega
  have e := congrArg (fun n => Nat.testBit n i) h
  simp only [Nat.testBit_mod_two_pow, decide_eq_true hi, Bool.true_and] at e
  exact e

theorem bit_toUnsigned (w : Nat) (hw : w = 16 ∨ w = 32 ∨ w = 64) (y : Int) (i : Nat)
    (hi : i < w) : bit (toUnsigned w y) i = bit y i := by
  have h : pattern64 (toUnsigned w y) % 2 ^ w = pattern64 y % 2 ^ w := by
    unfold pattern64 toUnsigned
    rcases hw with rfl | rfl | rfl <;> omega
  have e := congrArg (fun n => Nat.testBit n i) h
  simp only [Nat.testBit_mod_two_pow, decide_eq_true hi, Bool.true_and] at e
  exact e

theorem bit_mask_low (M : Int) (s : Nat) (hM : pattern64 M = 2 ^ s - 1) (i : Nat) :
    bit M i = decide (i < s) := by
  unfold bit
  rw [hM, Nat.testBit_two_pow_sub_one]

set_option maxRecDepth 100000 in
theorem bit_mask_hi8_32 (i : Nat) :
    bit 0xFF00FF00 i = decide (i < 32 ∧ (i / 8) % 2 = 1) := by
  rcases Nat.lt_or_ge i 64 with h | h
  · interval_cases i <;> rfl
  · rw [bit_ge _ _ h]
    exact (decide_eq_false (by omega)).symm

set_option maxRecDepth 100000 in
theorem bit_mask_lo8_32 (i : Nat) :
    bit 0xFF00FF i = decide (i < 32 ∧ (i / 8) % 2 = 0) := by
  rcases Nat.lt_or_ge i 64 with h | h
  · interval_cases i <;> rfl
  · rw [bit_ge _ _ h]
    exact (decide_eq_false (by omega)).symm

set_option maxRecDepth 100000 in
theorem bit_mask_hi8_64 (i : Nat) :
    bit 0xFF00FF00FF00FF00 i = decide (i < 64 ∧ (i / 8) % 2 = 1) := by
  rcases Nat.lt_or_ge i 64 with h | h
  · interval_cases i <;> rfl
  · rw [bit_ge _ _ h]
    exact (decide_eq_false (by omega)).symm

set_option maxRecDepth 100000 in
theorem bit_mask_lo8_64 (i : Nat) :
    bit 0x00FF00FF00FF00FF i = decide (i < 64 ∧ (i / 8) % 2 = 0) := by
  rcases Nat.lt_or_ge i 64 with h | h
  · interval_cases i <;> rfl
  · rw [bit_ge _ _ h]
    exact (decide_eq_false (by omega)).symm

set_option maxRecDepth 100000 in
theorem bit_mask_hi16_64 (i : Nat) :
    bit 0xFFFF0000FFFF0000 i = decide (i < 64 ∧ (i / 16) % 2 = 1) := by
  rcases Nat.lt_or_ge i 64 with h | h
  · interval_cases i <;> rfl
  · rw [bit_ge _ _ h]
    exact (decide_eq_false (by omega)).symm

set_option maxRecDepth 100000 in
theorem bit_mask_lo16_64 (i : Nat) :
    bit 0x0000FFFF0000FFFF i = decide (i < 64 ∧ (i / 16) % 2 = 0) := by
  rcases Nat.lt_or_ge i 64 with h | h
  · interval_cases i <;> rfl
  · rw [bit_ge _ _ h]
    exact (decide_eq_false (by omega)).symm

/-- One stage `((v << s) & Mhi) | ((v >> s) & Mlo)`: neighbouring blocks of
`s` bits change places. -/
theorem stage_bit (v Mhi Mlo sI : Int) (s W : Nat) (hs : sI = (s : Int))
    (hs3 : s = 8 ∨ s = 16 ∨ s = 32) (hW : W ≤ 64)
    (hhi : ∀ i, bit Mhi i = decide (i < W ∧ (i / s) % 2 = 1))
    (hlo : ∀ i, bit Mlo i = decide (i < W ∧ (i / s) % 2 = 0))
    (hfit : ∀ i, i < W → (i / s) % 2 = 0 → i + s < 64)
    (i : Nat) (hi : i < W) :
    bit (bitor (bitand (v <<< sI) Mhi) (bitand (v >>> sI) Mlo)) i =
      bit v (if (i / s) % 2 = 1 then i - s else i + s) := by
  rw [bit_bitor, bit_bitand, bit_bitand, hhi, hlo, bit_shl v sI s hs hs3]
  by_cases hc : (i / s) % 2 = 1
  · have hsi : s ≤ i := by
      rcases hs3 with rfl | rfl | rfl <;> omega
    rw [if_pos hc, decide_eq_true (by omega : i < 64), decide_eq_true hsi,
      decide_eq_true (⟨hi, hc⟩ : i < W ∧ (i / s) % 2 = 1),
      decide_eq_false (by omega : ¬ (i < W ∧ (i / s) % 2 = 0))]
    simp
  · have hc0 : (i / s) % 2 = 0 := by omega
    rw [if_neg hc, decide_eq_false (by omega : ¬ (i < W ∧ (i / s) % 2 = 1)),
      decide_eq_true (⟨hi, hc0⟩ : i < W ∧ (i / s) % 2 = 0),
      bit_shr v sI s hs hs3 i (hfit i hi hc0)]
    simp

/-- The last stage of a signed swap, `(v << s) | ((v >> s) & M)` with `M` the
mask of the low `s` bits, on `2 * s` bits. -/
theorem final_signed_bit (v M sI : Int) (s : Nat) (hs : sI = (s : Int))
    (hs3 : s = 8 ∨ s = 16 ∨ s = 32) (hM : ∀ i, bit M i = decide (i < s))
    (i : Nat) (hi : i < 2 * s) :
    bit (bitor (v <<< sI) (bitand (v >>> sI) M)) i =
      bit v (if i < s then i + s else i - s) := by
  have h64 : i < 64 := by
    rcases hs3 with rfl | rfl | rfl <;> omega
  rw [bit_bitor, bit_bitand, hM, bit_shl v sI s hs hs3]
  by_cases hc : i < s
  · rw [if_pos hc, decide_eq_false (by omega : ¬ s ≤ i), decide_eq_true hc,
      bit_shr v sI s hs hs3 i (by rcases hs3 with rfl | rfl | rfl <;> omega)]
    simp
  · rw [if_neg hc, decide_eq_true (by omega : s ≤ i), decide_eq_false hc,
      decide_eq_true h64]
    simp

/-- The last stage of an unsigned swap, `(v << s) | (v >> s)`, on a value of
`2 * s` bits. -/
theorem final_unsigned_bit (v sI : Int) (s : Nat) (hs : sI = (s : Int))
    (hs3 : s = 8 ∨ s = 16 ∨ s = 32) (h0 : 0 ≤ v) (h1 : v < 2 ^ (2 * s))
    (i : Nat) (hi : i < 2 * s) :
    bit (bitor (v <<< sI) (v >>> sI)) i = bit v (if i < s then i + s else i - s) := by
  have h64 : i < 64 := by
    rcases hs3 with rfl | rfl | rfl <;> omega
  rw [bit_bitor, bit_shl v sI s hs hs3]
  by_cases hc : i < s
  · rw [if_pos hc, decide_eq_false (by omega : ¬ s ≤ i),
      bit_shr v sI s hs hs3 i (by rcases hs3 with rfl | rfl | rfl <;> omega)]
    simp
  · rw [if_neg hc, decide_eq_true (by omega : s ≤ i), decide_eq_true h64,
      bit_shr_high v sI s hs hs3 h0 h1 i (by omega)]
    simp

theorem toUnsigned_range (w : Nat) (y : Int) : 0 ≤ toUnsigned w y ∧ toUnsigned w y < 2 ^ w := by
  unfold toUnsigned
  have h : (0 : Int) < 2 ^ w := by positivity
  exact ⟨Int.emod_nonneg _ (by omega), Int.emod_lt_of_pos _ h⟩

theorem toSigned_range (w : Nat) (hw : w = 16 ∨ w = 32 ∨ w = 64) (y : Int) :
    -2 ^ (w - 1) ≤ toSigned w y ∧ toSigned w y < 2 ^ (w - 1) := by
  unfold toSigned
  rcases hw with rfl | rfl | rfl <;> split_ifs <;> omega

theorem swap_uint16_bit (x : Int) (h0 : 0 ≤ x) (h1 : x < 2 ^ 16) (i : Nat) (hi : i < 16) :
    bit (swap_uint16 x) i = bit x (8 * (1 - i / 8) + i % 8) := by
  unfold swap_uint16
  rw [bit_toUnsigned 16 (Or.inl rfl) _ i hi,
    final_unsigned_bit x 8 8 rfl (Or.inl rfl) h0 h1 i hi]
  congr 1
  split_ifs <;> omega

theorem swap_int16_bit (x : Int) (i : Nat) (hi : i < 16) :
    bit (swap_int16 x) i = bit x (8 * (1 - i / 8) + i % 8) := by
  unfold swap_int16
  rw [bit_toSigned 16 (Or.inl rfl) _ i hi,
    final_signed_bit x 0xFF 8 8 rfl (Or.inl rfl) (bit_mask_low 0xFF 8 rfl) i hi]
  congr 1
  split_ifs <;> omega

theorem swap_uint32_bit (x : Int) (i : Nat) (hi : i < 32) :
    bit (swap_uint32 x) i = bit x (8 * (3 - i / 8) + i % 8) := by
  have hj : (if i < 16 then i + 16 else i - 16) < 32 := by
    split_ifs <;> omega
  dsimp only [swap_uint32]
  rw [bit_toUnsigned 32 (Or.inr (Or.inl rfl)) _ i hi,
    final_unsigned_bit _ 16 16 rfl (Or.inr (Or.inl rfl)) (toUnsigned_range 32 _).1
      (toUnsigned_range 32 _).2 i hi,
    bit_toUnsigned 32 (Or.inr (Or.inl rfl)) _ _ hj,
    stage_bit x 0xFF00FF00 0xFF00FF 8 8 32 rfl (Or.inl rfl) (by decide) bit_mask_hi8_32 bit_mask_lo8_32
      (fun i h1 h2 => by omega) _ hj]
  congr 1
  split_ifs <;> omega

theorem swap_int32_bit (x : Int) (i : Nat) (hi : i < 32) :
    bit (swap_int32 x) i = bit x (8 * (3 - i / 8) + i % 8) := by
  have hj : (if i < 16 then i + 16 else i - 16) < 32 := by
    split_ifs <;> omega
  dsimp only [swap_int32]
  rw [bit_toSigned 32 (Or.inr (Or.inl rfl)) _ i hi,
    final_signed_bit _ 0xFFFF 16 16 rfl (Or.inr (Or.inl rfl)) (bit_mask_low 0xFFFF 16 rfl) i hi,
    bit_toSigned 32 (Or.inr (Or.inl rfl)) _ _ hj,
    stage_bit x 0xFF00FF00 0xFF00FF 8 8 32 rfl (Or.inl rfl) (by decide) bit_mask_hi8_32 bit_mask_lo8_32
      (fun i h1 h2 => by omega) _ hj]
  congr 1
  split_ifs <;> omega

theorem swap_int64_bit (x : Int) (i : Nat) (hi : i < 64) :
    bit (swap_int64 x) i = bit x (8 * (7 - i / 8) + i % 8) := by
  have hj : (if i < 32 then i + 32 else i - 32) < 64 := by
    split_ifs <;> omega
  have hk : (if ((if i < 32 then i + 32 else i - 32) / 16) % 2 = 1
      then (if i < 32 then i + 32 else i - 32) - 16
      else (if i < 32 then i + 32 else i - 32) + 16) < 64 := by
    split_ifs <;> omega
  dsimp only [swap_int64]
  rw [bit_toSigned 64 (Or.inr (Or.inr rfl)) _ i hi,
    final_signed_bit _ 0xFFFFFFFF 32 32 rfl (Or.inr (Or.inr rfl))
      (bit_mask_low 0xFFFFFFFF 32 rfl) i hi,
    bit_toSigned 64 (Or.inr (Or.inr rfl)) _ _ hj,
    stage_bit _ 0xFFFF0000FFFF0000 0x0000FFFF0000FFFF 16 16 64 rfl (Or.inr (Or.inl rfl))
      (by decide) bit_mask_hi16_64 bit_mask_lo16_64 (fun i h1 h2 => by omega) _ hj,
    bit_toSigned 64 (Or.inr (Or.inr rfl)) _ _ hk,
    stage_bit x 0xFF00FF00FF00FF00 0x00FF00FF00FF00FF 8 8 64 rfl (Or.inl rfl)
      (by decide) bit_mask_hi8_64 bit_mask_lo8_64 (fun i h1 h2 => by omega) _ hk]
  congr 1
  split_ifs <;> omega

theorem swap_uint64_bit (x : Int) (i : Nat) (hi : i < 64) :
    bit (swap_uint64 x) i = bit x (8 * (7 - i / 8) + i % 8) := by
  have hj : (if i < 32 then i + 32 else i - 32) < 64 := by
    split_ifs <;> omega
  have hk : (if ((if i < 32 then i + 32 else i - 32) / 16) % 2 = 1
      then (if i < 32 then i + 32 else i - 32) - 16
      else (if i < 32 then i + 32 else i - 32) + 16) < 64 := by
    split_ifs <;> omega
  dsimp only [swap_uint64]
  rw [bit_toUnsigned 64 (Or.inr (Or.inr rfl)) _ i hi,
    final_unsigned_bit _ 32 32 rfl (Or.inr (Or.inr rfl)) (toUnsigned_range 64 _).1
      (toUnsigned_range 64 _).2 i hi,
    bit_toUnsigned 64 (Or.inr (Or.inr rfl)) _ _ hj,
    stage_bit _ 0xFFFF0000FFFF0000 0x0000FFFF0000FFFF 16 16 64 rfl (Or.inr (Or.inl rfl))
      (by decide) bit_mask_hi16_64 bit_mask_lo16_64 (fun i h1 h2 => by omega) _ hj,
    bit_toUnsigned 64 (Or.inr (Or.inr rfl)) _ _ hk,
    stage_bit x 0xFF00FF00FF00FF00 0x00FF00FF00FF00FF 8 8 64 rfl (Or.inl rfl)
      (by decide) bit_mask_hi8_64 bit_mask_lo8_64 (fun i h1 h2 => by omega) _ hk]
  congr 1
  split_ifs <;> omega

theorem byte_pattern (a : Int) (k : Nat) (hk : k < 8) :
    byte a k = (((pattern64 a / 2 ^ (8 * k)) % 2 ^ 8 : Nat) : Int) := by
  unfold byte pattern64
  interval_cases k <;> omega

/-- Two bytes with the same eight bits are equal. -/
theorem byte_eq_of_bits (a b : Int) (k m : Nat) (hk : k < 8) (hm : m < 8)
    (h : ∀ j, j < 8 → bit a (8 * k + j) = bit b (8 * m + j)) : byte a k = byte b m := by
  rw [byte_pattern a k hk, byte_pattern b m hm]
  congr 1
  apply Nat.eq_of_testBit_eq
  intro j
  rw [Nat.testBit_mod_two_pow, Nat.testBit_mod_two_pow, ← Nat.shiftRight_eq_div_pow,
    ← Nat.shiftRight_eq_div_pow, Nat.testBit_shiftRight, Nat.testBit_shiftRight]
  by_cases hj : j < 8
  · rw [decide_eq_true hj, Bool.true_and, Bool.true_and]
    exact h j hj
  · rw [decide_eq_false hj, Bool.false_and, Bool.false_and]

theorem pattern_eq_of_bits (w : Nat) (a b : Int) (h : ∀ i, i < w → bit a i = bit b i) :
    pattern64 a % 2 ^ w = pattern64 b % 2 ^ w := by
  apply Nat.eq_of_testBit_eq
  intro i
  rw [Nat.testBit_mod_two_pow, Nat.testBit_mod_two_pow]
  by_cases hi : i < w
  · rw [decide_eq_true hi, Bool.true_and, Bool.true_and]
    exact h i hi
  · rw [decide_eq_false hi, Bool.false_and, Bool.false_and]

theorem eq_of_bits_unsigned (w : Nat) (hw : w = 16 ∨ w = 32 ∨ w = 64) (a b : Int)
    (ha : 0 ≤ a ∧ a < 2 ^ w) (hb : 0 ≤ b ∧ b < 2 ^ w)
    (h : ∀ i, i < w → bit a i = bit b i) : a = b := by
  have e := pattern_eq_of_bits w a b h
  unfold pattern64 at e
  rcases hw with rfl | rfl | rfl <;> omega

theorem eq_of_bits_signed (w : Nat) (hw : w = 16 ∨ w = 32 ∨ w = 64) (a b : Int)
    (ha : -2 ^ (w - 1) ≤ a ∧ a < 2 ^ (w - 1)) (hb : -2 ^ (w - 1) ≤ b ∧ b < 2 ^ (w - 1))
    (h : ∀ i, i < w → bit a i = bit b i) : a = b := by
  have e := pattern_eq_of_bits w a b h
  unfold pattern64 at e
  rcases hw with rfl | rfl | rfl <;> omega

theorem swap_uint16_reversal : ByteReversal 0 (2 ^ 16) 2 swap_uint16 := by
  intro x h0 h1
  have hr : ∀ y, 0 ≤ swap_uint16 y ∧ swap_uint16 y < 2 ^ 16 :=
    fun y => toUnsigned_range 16 _
  refine ⟨hr x, ?_, ?_⟩
  · intro k hk
    refine byte_eq_of_bits _ _ _ _ (by omega) (by omega) (fun j hj => ?_)
    rw [swap_uint16_bit x h0 h1 _ (by omega)]
    congr 1
    omega
  · refine eq_of_bits_unsigned 16 (Or.inl rfl) _ _ (hr _) ⟨h0, h1⟩ (fun i hi => ?_)
    rw [swap_uint16_bit _ (hr x).1 (hr x).2 i hi, swap_uint16_bit x h0 h1 _ (by omega)]
    congr 1
    omega

theorem swap_int16_reversal : ByteReversal (-2 ^ 15) (2 ^ 15) 2 swap_int16 := by
  intro x h0 h1
  have hr : ∀ y, -2 ^ 15 ≤ swap_int16 y ∧ swap_int16 y < 2 ^ 15 :=
    fun y => toSigned_range 16 (Or.inl rfl) _
  refine ⟨hr x, ?_, ?_⟩
  · intro k hk
    refine byte_eq_of_bits _ _ _ _ (by omega) (by omega) (fun j hj => ?_)
    rw [swap_int16_bit x _ (by omega)]
    congr 1
    omega
  · refine eq_of_bits_signed 16 (Or.inl rfl) _ _ (hr _) ⟨h0, h1⟩ (fun i hi => ?_)
    rw [swap_int16_bit _ i hi, swap_int16_bit x _ (by omega)]
    congr 1
    omega

theorem swap_uint32_reversal : ByteReversal 0 (2 ^ 32) 4 swap_uint32 := by
  intro x h0 h1
  have hr : ∀ y, 0 ≤ swap_uint32 y ∧ swap_uint32 y < 2 ^ 32 :=
    fun y => toUnsigned_range 32 _
  refine ⟨hr x, ?_, ?_⟩
  · intro k hk
    refine byte_eq_of_bits _ _ _ _ (by omega) (by omega) (fun j hj => ?_)
    rw [swap_uint32_bit x _ (by omega)]
    congr 1
    omega
  · refine eq_of_bits_unsigned 32 (Or.inr (Or.inl rfl)) _ _ (hr _) ⟨h0, h1⟩ (fun i hi => ?_)
    rw [swap_uint32_bit _ i hi, swap_uint32_bit x _ (by omega)]
    congr 1
    omega

theorem swap_int32_reversal : ByteReversal (-2 ^ 31) (2 ^ 31) 4 swap_int32 := by
  intro x h0 h1
  have hr : ∀ y, -2 ^ 31 ≤ swap_int32 y ∧ swap_int32 y < 2 ^ 31 :=
    fun y => toSigned_range 32 (Or.inr (Or.inl rfl)) _
  refine ⟨hr x, ?_, ?_⟩
  · intro k hk
    refine byte_eq_of_bits _ _ _ _ (by omega) (by omega) (fun j hj => ?_)
    rw [swap_int32_bit x _ (by omega)]
    congr 1
    omega
  · refine eq_of_bits_signed 32 (Or.inr (Or.inl rfl)) _ _ (hr _) ⟨h0, h1⟩ (fun i hi => ?_)
    rw [swap_int32_bit _ i hi, swap_int32_bit x _ (by omega)]
    congr 1
    omega

theorem swap_uint64_reversal : ByteReversal 0 (2 ^ 64) 8 swap_uint64 := by
  intro x h0 h1
  have hr : ∀ y, 0 ≤ swap_uint64 y ∧ swap_uint64 y < 2 ^ 64 :=
    fun y => toUnsigned_range 64 _
  refine ⟨hr x, ?_, ?_⟩
  · intro k hk
    refine byte_eq_of_bits _ _ _ _ (by omega) (by omega) (fun j hj => ?_)
    rw [swap_uint64_bit x _ (by omega)]
    congr 1
    omega
  · refine eq_of_bits_unsigned 64 (Or.inr (Or.inr rfl)) _ _ (hr _) ⟨h0, h1⟩ (fun i hi => ?_)
    rw [swap_uint64_bit _ i hi, swap_uint64_bit x _ (by omega)]
    congr 1
    omega

theorem swap_int64_reversal : ByteReversal (-2 ^ 63) (2 ^ 63) 8 swap_int64 := by
  intro x h0 h1
  have hr : ∀ y, -2 ^ 63 ≤ swap_int64 y ∧ swap_int64 y < 2 ^ 63 :=
    fun y => toSigned_range 64 (Or.inr (Or.inr rfl)) _
  refine ⟨hr x, ?_, ?_⟩
  · intro k hk
    refine byte_eq_of_bits _ _ _ _ (by omega) (by omega) (fun j hj => ?_)
    rw [swap_int64_bit x _ (by omega)]
    congr 1
    omega
  · refine eq_of_bits_signed 64 (Or.inr (Or.inr rfl)) _ _ (hr _) ⟨h0, h1⟩ (fun i hi => ?_)
    rw [swap_int64_bit _ i hi, swap_int64_bit x _ (by omega)]
    congr 1
    omega

/-- The signed and the unsigned swap of a width give the same bit pattern. -/
theorem swap_signed_unsigned (x : Int) :
    toUnsigned 16 (swap_int16 x) = swap_uint16 (toUnsigned 16 x) ∧
    toUnsigned 32 (swap_int32 x) = swap_uint32 (toUnsigned 32 x) ∧
    toUnsigned 64 (swap_int64 x) = swap_uint64 (toUnsigned 64 x) := by
  refine ⟨?_, ?_, ?_⟩
  · refine eq_of_bits_unsigned 16 (Or.inl rfl) _ _ (toUnsigned_range 16 _)
      (toUnsigned_range 16 _) (fun i hi => ?_)
    rw [bit_toUnsigned 16 (Or.inl rfl) _ i hi, swap_int16_bit x i hi,
      swap_uint16_bit _ (toUnsigned_range 16 x).1 (toUnsigned_range 16 x).2 i hi,
      bit_toUnsigned 16 (Or.inl rfl) _ _ (by omega)]
  · refine eq_of_bits_unsigned 32 (Or.inr (Or.inl rfl)) _ _ (toUnsigned_range 32 _)
      (toUnsigned_range 32 _) (fun i hi => ?_)
    rw [bit_toUnsigned 32 (Or.inr (Or.inl rfl)) _ i hi, swap_int32_bit x i hi,
      swap_uint32_bit _ i hi, bit_toUnsigned 32 (Or.inr (Or.inl rfl)) _ _ (by omega)]
  · refine eq_of_bits_unsigned 64 (Or.inr (Or.inr rfl)) _ _ (toUnsigned_range 64 _)
      (toUnsigned_range 64 _) (fun i hi => ?_)
    rw [bit_toUnsigned 64 (Or.inr (Or.inr rfl)) _ i hi, swap_int64_bit x i hi,
      swap_uint64_bit _ i hi, bit_toUnsigned 64 (Or.inr (Or.inr rfl)) _ _ (by omega)]
set_option maxRecDepth 100000 in
/-- C21. Each of the six swap functions is exact byte reversal on its type:
for every value `x` of the type, negative ones included, the result is a
value of the type, byte `k` of the result is byte `w/8 - 1 - k` of `x`, and
swapping twice gives `x` back; the signed and the unsigned swap of a width
give the same bit pattern; and `swap_uint32(0x01000000) = 1`. -/
theorem swaps_reverse_bytes :
    ByteReversal 0 (2 ^ 16) 2 swap_uint16 ∧
    ByteReversal (-2 ^ 15) (2 ^ 15) 2 swap_int16 ∧
    ByteReversal 0 (2 ^ 32) 4 swap_uint32 ∧
    ByteReversal (-2 ^ 31) (2 ^ 31) 4 swap_int32 ∧
    ByteReversal 0 (2 ^ 64) 8 swap_uint64 ∧
    ByteReversal (-2 ^ 63) (2 ^ 63) 8 swap_int64 ∧
    (∀ x : Int, -2 ^ 15 ≤ x → x < 2 ^ 15 →
      toUnsigned 16 (swap_int16 x) = swap_uint16 (toUnsigned 16 x)) ∧
    (∀ x : Int, -2 ^ 31 ≤ x → x < 2 ^ 31 →
      toUnsigned 32 (swap_int32 x) = swap_uint32 (toUnsigned 32 x)) ∧
    (∀ x : Int, -2 ^ 63 ≤ x → x < 2 ^ 63 →
      toUnsigned 64 (swap_int64 x) = swap_uint64 (toUnsigned 64 x)) ∧
    swap_uint32 0x01000000 = 1 ∧
    swap_uint16 0x1234 = 0x3412 ∧
    swap_int16 (-2) = -257 ∧
    swap_int32 (-2) = -16777217 ∧
    swap_int64 (-2) = -72057594037927937 ∧
    swap_uint64 0x0102030405060708 = 0x0807060504030201 := by
  refine ⟨swap_uint16_reversal, swap_int16_reversal, swap_uint32_reversal,
    swap_int32_reversal, swap_uint64_reversal, swap_int64_reversal,
    fun x _ _ => (swap_signed_unsigned x).1, fun x _ _ => (swap_signed_unsigned x).2.1,
    fun x _ _ => (swap_signed_unsigned x).2.2, ?_, ?_, ?_, ?_, ?_, ?_⟩ <;> rfl

/-! ## Strided views and narrow unsigned element types -/

/-- At `T = std::int64_t` and an explicit length that an `int64` holds, the
instantiation is `parents2startsstops`. -/
theorem parents2startsstops_at_int64 (parents : BufferInfo Int) (length : Int)
    (h0 : 0 ≤ length) (h1 : length < 2 ^ 63) :
    parents2startsstops_at IntType.int64 parents length = parents2startsstops parents length := by
  have e1 : toSigned 64 length = length := by
    unfold toSigned
    split_ifs <;> omega
  have e2 : IntType.int64.cast (-1) = -1 := by decide
  have e3 : IntType.int64.minus_one = -1 := by decide
  unfold parents2startsstops_at parents2startsstops
  simp only [if_neg (not_lt.mpr h0), pure_bind, e1, e2, e3]

/-- C2. The sequence `[0, 2, 5]` handed over as the view `a[::2]` of
`a = [0, 1, 2, 3, 5]` (`size = 3`, `strides = [16]`, `N = 2`): line 199 reads
the length of the output at `offsets_ptr[size - 1]`, the cell `a[2] = 2`,
where the last offset is `offsets_ptr[(size - 1) * N] = 5`; the output gets two
cells and the group `[2, 5)` is written past its end. Handed over as a
contiguous buffer the same sequence gives `[0, 0, 1, 1, 1]`. -/
theorem offsets2parents_length_ignores_stride :
    offsets2parents
      { ptr := [0, 1, 2, 3, 5], itemsize := 8, size := 3, ndim := 1, strides := [16],
        format := "q", shape := [3] } = .error .undefined ∧
    offsets2parents (.ofList [0, 2, 5]) = .ok [0, 0, 1, 1, 1] := by
  decide

/-- C6. The round trip on the offsets `[0, 2, 5]` handed over as the view
`a[::2]` of `a = [0, 1, 2, 3, 5]`: `offsets2parents` sizes its output from the
cell `a[2]` (line 199) and writes past its end, so that no starts and stops
are reconstructed; on the contiguous buffer the round trip gives
`starts = [0, 2]` and `stops = [2, 5]`. -/
theorem roundtrip_on_strided_offsets :
    (offsets2parents
      { ptr := [0, 1, 2, 3, 5], itemsize := 8, size := 3, ndim := 1, strides := [16],
        format := "q", shape := [3] } >>= fun parents =>
      parents2startsstops (.ofList parents) (-1)) = .error .undefined ∧
    (offsets2parents (.ofList [0, 2, 5]) >>= fun parents =>
      parents2startsstops (.ofList parents) (-1)) = .ok ([0, 2], [2, 5]) := by
  decide

set_option maxRecDepth 100000 in
/-- C4. At `T = std::uint8_t` and `T = std::uint16_t` the sentinel
`T last = -1` is `255` or `65535`, and the closing test `last != -1` (line 321)
compares it with `-1` after promotion to `int`: on an empty `parents` with
length `3` the test holds and `stops[255]` or `stops[65535]` is written,
outside the three cells. At the other element types the same input gives
`starts = stops = [0, 0, 0]`. -/
theorem parents2startsstops_unsigned_sentinel :
    parents2startsstops_at { bits := 8, signed := false }
      { ptr := [], itemsize := 1, size := 0, ndim := 1, strides := [1], format := "B",
        shape := [0] } 3 = .error .undefined ∧
    parents2startsstops_at { bits := 16, signed := false }
      { ptr := [], itemsize := 2, size := 0, ndim := 1, strides := [2], format := "H",
        shape := [0] } 3 = .error .undefined ∧
    parents2startsstops_at { bits := 32, signed := false }
      { ptr := [], itemsize := 4, size := 0, ndim := 1, strides := [4], format := "I",
        shape := [0] } 3 = .ok ([0, 0, 0], [0, 0, 0]) ∧
    parents2startsstops_at { bits := 8, signed := true }
      { ptr := [], itemsize := 1, size := 0, ndim := 1, strides := [1], format := "b",
        shape := [0] } 3 = .ok ([0, 0, 0], [0, 0, 0]) ∧
    parents2startsstops_at IntType.int64 (.ofList []) 3 = .ok ([0, 0, 0], [0, 0, 0]) ∧
    parents2startsstops (.ofList []) 3 = .ok ([0, 0, 0], [0, 0, 0]) := by
  decide

/-- C11. A jagged array built from `starts = [0, 2, 4]` handed over as the
view `a[::2]` of `a = [0, 1, 2, 3, 4]`, `stops = [2, 4, 5]` and
`content = [10, 20, 30, 40, 50]`: `set_starts` scans the view with its stride
and stores it, `__str__` reads `starts_ptr[i]` without the stride (lines
467-472), the cells `0, 1, 2`, and renders the rows `[0, 2)`, `[1, 4)`, `[2, 5)`. With
`a = [0, 9, 2, 9, 4]` the second row is read as `[9, 4)` and `__str__` throws
`out_of_range`. With contiguous `starts` the result is
`"[[10 20] [30 40] [50]]"`. -/
theorem str_ignores_stride_of_starts :
    (JaggedArraySrc.init_array
      { ptr := [0, 1, 2, 3, 4], itemsize := 8, size := 3, ndim := 1, strides := [16],
        format := "q", shape := [3] }
      (.ofList [2, 4, 5]) (.ofList [10, 20, 30, 40, 50]) >>= __str__) =
      .ok "[[10 20] [20 30 40] [30 40 50]]" ∧
    (JaggedArraySrc.init_array
      { ptr := [0, 9, 2, 9, 4], itemsize := 8, size := 3, ndim := 1, strides := [16],
        format := "q", shape := [3] }
      (.ofList [2, 4, 5]) (.ofList [10, 20, 30, 40, 50]) >>= __str__) =
      .error .out_of_range ∧
    (JaggedArraySrc.init_array (.ofList [0, 2, 4]) (.ofList [2, 4, 5])
      (.ofList [10, 20, 30, 40, 50]) >>= __str__) = .ok "[[10 20] [30 40] [50]]" := by
  decide

end Jagged
